import Mathlib

/-!
Verification of the grid-based simulation and search toolkit of an
Advent-of-Code-2023 style repository.  Each `DayN` namespace is a shallow
embedding of the corresponding `src/dayN.rs` module: Rust `HashSet`s become
`Finset`s, `HashMap`s become association lists or `Finset`s of pairs,
`usize`/`isize` become `Nat`/`Int`, and fallible parsing returns `Option`.
Loops whose termination is not structural are given explicit fuel; every
theorem that depends on a loop's outcome takes the outcome as a hypothesis,
so the statements are insensitive to the exact fuel bound.
-/

namespace Day18

/-- Signed 2-D coordinate, as in `day18.rs`. -/
structure Coordinate where
  x : Int
  y : Int
deriving DecidableEq, Repr

/-- Movement direction, as in `day18.rs`. -/
inductive Dir where
  | up
  | down
  | left
  | right
deriving DecidableEq, Repr

/-- Embeds `Coordinate::advance` from `day18.rs`: move `steps` cells in `dir`. -/
def Coordinate.advance (c : Coordinate) (dir : Dir) (steps : Int) : Coordinate :=
  match dir with
  | Dir.up => ⟨c.x, c.y - steps⟩
  | Dir.down => ⟨c.x, c.y + steps⟩
  | Dir.left => ⟨c.x - steps, c.y⟩
  | Dir.right => ⟨c.x + steps, c.y⟩

/-- Embeds `trench_area` from `day18.rs` literally: one pass accumulates the
corner list (starting from `(0, 0)`) and the total edge length, then a second
pass folds the shoelace cross products over consecutive corner pairs, and the
result is `(|sum| + edge) / 2 + 1`. -/
def trench_area (dig_instructions : List (Dir × Nat)) : Nat :=
  let fin := dig_instructions.foldl
    (fun (st : Coordinate × List Coordinate × Nat) i =>
      let c := st.1.advance i.1 (Int.ofNat i.2)
      (c, st.2.1 ++ [c], st.2.2 + i.2))
    (⟨0, 0⟩, [⟨0, 0⟩], 0)
  let trench_corners := fin.2.1
  let sum := (trench_corners.zip trench_corners.tail).foldl
    (fun s ab => s + (ab.1.x * ab.2.y - ab.2.x * ab.1.y)) 0
  (sum.natAbs + fin.2.2) / 2 + 1

/-- Spec-side corner list: the digger's position before and after each
instruction, starting at the origin. -/
def cornersOf : Coordinate → List (Dir × Nat) → List Coordinate
  | c, [] => [c]
  | c, i :: rest => c :: cornersOf (c.advance i.1 (Int.ofNat i.2)) rest

/-- Spec-side shoelace sum: sum over consecutive corner pairs `(a, b)` of
`a.x * b.y - b.x * a.y`. -/
def crossSum : List Coordinate → Int
  | a :: b :: rest => (a.x * b.y - b.x * a.y) + crossSum (b :: rest)
  | _ => 0

theorem cornersOf_ne_nil (c : Coordinate) (l : List (Dir × Nat)) :
    cornersOf c l ≠ [] := by
  cases l <;> simp [cornersOf]

theorem cornersOf_head (c : Coordinate) (l : List (Dir × Nat)) :
    (cornersOf c l).head (cornersOf_ne_nil c l) = c := by
  cases l <;> simp [cornersOf]

/-- The corner-accumulating fold of `trench_area` produces exactly the
spec-side corner list, the final position, and the total edge length. -/
theorem trench_fold_eq (c : Coordinate) (acc : List Coordinate) (e : Nat)
    (l : List (Dir × Nat)) :
    l.foldl
      (fun (st : Coordinate × List Coordinate × Nat) i =>
        let nc := st.1.advance i.1 (Int.ofNat i.2)
        (nc, st.2.1 ++ [nc], st.2.2 + i.2))
      (c, acc ++ [c], e)
      = ((cornersOf c l).getLast (cornersOf_ne_nil c l),
         acc ++ cornersOf c l,
         e + (l.map Prod.snd).sum) := by
  induction l generalizing c acc e with
  | nil => simp [cornersOf]
  | cons i rest ih =>
    simp only [List.foldl_cons]
    have h := ih (c.advance i.1 (Int.ofNat i.2)) (acc ++ [c]) (e + i.2)
    simp only [List.append_assoc] at h
    rw [List.append_assoc, h]
    simp [cornersOf, List.getLast_cons (cornersOf_ne_nil _ rest), Nat.add_assoc]

/-- Folding the cross products over zipped consecutive pairs equals the
recursive shoelace sum. -/
theorem zip_cross_eq (s : Int) (l : List Coordinate) :
    ((l.zip l.tail).foldl (fun s ab => s + (ab.1.x * ab.2.y - ab.2.x * ab.1.y)) s)
      = s + crossSum l := by
  induction l generalizing s with
  | nil => simp [crossSum]
  | cons a rest ih =>
    cases rest with
    | nil => simp [crossSum]
    | cons b rest2 =>
      simp only [List.tail_cons, List.zip_cons_cons, List.foldl_cons]
      have h := ih (s + (a.x * b.y - b.x * a.y))
      simp only [List.tail_cons] at h
      rw [h]
      simp [crossSum, Int.add_assoc]

/-- C8: for every non-empty instruction list, `trench_area` returns exactly
the absolute value of the shoelace sum over consecutive corner pairs, plus
the total boundary length (the sum of all step counts), divided by two,
plus one. -/
theorem trench_area_matches_stated_arithmetic
    (l : List (Dir × Nat)) (hne : l ≠ []) :
    trench_area l
      = ((crossSum (cornersOf ⟨0, 0⟩ l)).natAbs + (l.map Prod.snd).sum) / 2 + 1 := by
  unfold trench_area
  have hf := trench_fold_eq ⟨0, 0⟩ [] 0 l
  simp only [List.nil_append, Nat.zero_add] at hf
  rw [hf]
  dsimp only
  rw [zip_cross_eq 0 (cornersOf ⟨0, 0⟩ l)]
  simp

/-- Witness for C8 at the concrete instruction list
`[R 2, D 2, L 2, U 2]` (a 3 by 3 square, area 9). -/
theorem trench_area_matches_stated_arithmetic_witness :
    ([(Dir.right, 2), (Dir.down, 2), (Dir.left, 2), (Dir.up, 2)] : List (Dir × Nat)) ≠ []
      ∧ trench_area [(Dir.right, 2), (Dir.down, 2), (Dir.left, 2), (Dir.up, 2)]
          = ((crossSum (cornersOf ⟨0, 0⟩
                [(Dir.right, 2), (Dir.down, 2), (Dir.left, 2), (Dir.up, 2)])).natAbs
              + ([(Dir.right, 2), (Dir.down, 2), (Dir.left, 2), (Dir.up, 2)].map Prod.snd).sum)
            / 2 + 1 :=
  ⟨by decide,
   trench_area_matches_stated_arithmetic
     [(Dir.right, 2), (Dir.down, 2), (Dir.left, 2), (Dir.up, 2)] (by decide)⟩

end Day18

namespace Grid

/-- One step of the shared line-scanning shape of the grid parsers in
`day14.rs`, `day16.rs` and `day17.rs`: process one character at `(x, y)`
updating the day-specific state, or fail.  After a successful character the
running `width` is set to `x + 1`; this is shared verbatim by all three
parsers. -/
def parseGridLine {σ : Type} (step : σ → Nat × Nat → Char → Option σ) (y : Nat) :
    Nat → List Char → σ × Nat → Option (σ × Nat)
  | _, [], st => some st
  | x, ch :: rest, (s, w) =>
    match step s (x, y) ch with
    | none => none
    | some s' => parseGridLine step y (x + 1) rest (s', x + 1)

/-- The outer loop shared by the three grid parsers: after each line the
running `height` is set to `y + 1`. -/
def parseGridLines {σ : Type} (step : σ → Nat × Nat → Char → Option σ) :
    Nat → List (List Char) → σ × Nat × Nat → Option (σ × Nat × Nat)
  | _, [], st => some st
  | y, line :: rest, (s, w, h) =>
    match parseGridLine step y 0 line (s, w) with
    | none => none
    | some (s', w') => parseGridLines step (y + 1) rest (s', w', y + 1)

/-- The width the spec claims the parsers store: one plus the maximum x
coordinate seen on any line, i.e. the length of the longest line. -/
def claimedWidth (lines : List (List Char)) : Nat :=
  lines.foldl (fun w l => max w l.length) 0

/-- The width the parsers actually store: the length of the last line that
contains at least one character (0 if there is none), because the running
`width` is overwritten by `x + 1` on every character of every line. -/
def actualWidth (lines : List (List Char)) : Nat :=
  lines.foldl (fun w l => if l.isEmpty then w else l.length) 0

theorem parseGridLine_width {σ : Type} (step : σ → Nat × Nat → Char → Option σ)
    (y : Nat) :
    ∀ (line : List Char) (x : Nat) (st : σ × Nat) (out : σ × Nat),
      parseGridLine step y x line st = some out →
      out.2 = if line.isEmpty then st.2 else x + line.length := by
  intro line
  induction line with
  | nil =>
    intro x st out h
    simp [parseGridLine] at h
    simp [← h]
  | cons ch rest ih =>
    intro x st out h
    simp only [parseGridLine] at h
    cases hs : step st.1 (x, y) ch with
    | none =>
      obtain ⟨s, w⟩ := st
      simp only at hs
      rw [hs] at h
      simp at h
    | some s' =>
      obtain ⟨s, w⟩ := st
      simp only at hs
      rw [hs] at h
      have := ih (x + 1) (s', x + 1) out h
      rcases hrest : rest.isEmpty with _ | _ <;> rw [hrest] at this <;> simp_all <;> omega

theorem parseGridLines_dims {σ : Type} (step : σ → Nat × Nat → Char → Option σ) :
    ∀ (lines : List (List Char)) (y : Nat) (st : σ × Nat × Nat)
      (out : σ × Nat × Nat),
      parseGridLines step y lines st = some out →
      out.2.1 = lines.foldl (fun w l => if l.isEmpty then w else l.length) st.2.1
        ∧ out.2.2 = if lines.isEmpty then st.2.2 else y + lines.length := by
  intro lines
  induction lines with
  | nil =>
    intro y st out h
    simp [parseGridLines] at h
    simp [← h]
  | cons line rest ih =>
    intro y st out h
    obtain ⟨s, w, hgt⟩ := st
    simp only [parseGridLines] at h
    cases hl : parseGridLine step y 0 line (s, w) with
    | none => rw [hl] at h; simp at h
    | some sw' =>
      rw [hl] at h
      obtain ⟨s', w'⟩ := sw'
      have hw' := parseGridLine_width step y line 0 (s, w) (s', w') hl
      simp only at hw'
      have := ih (y + 1) (s', w', y + 1) out h
      rcases this with ⟨h1, h2⟩
      constructor
      · rw [h1]
        simp only [List.foldl_cons]
        congr 1
        simpa using hw'
      · have h3 : out.2.2 = y + 1 + rest.length := by
          by_cases hrest : rest.isEmpty = true
          · rw [if_pos hrest] at h2
            have hrnil : rest = [] := List.isEmpty_iff.mp hrest
            subst hrnil
            simpa using h2
          · rw [if_neg hrest] at h2
            exact h2
        rw [h3]
        simp only [List.isEmpty_cons, List.length_cons]
        simp only [Bool.false_eq_true, if_false]
        omega

end Grid

namespace Day14

/-- The platform of `day14.rs`: bounds plus sparse sets of round and cube
rocks. -/
structure Platform where
  width : Nat
  height : Nat
  round : Finset (Nat × Nat)
  cube : Finset (Nat × Nat)
deriving DecidableEq

/-- Per-character action of `parse` in `day14.rs`: `O` is a round rock, `#` a
cube rock, `.` is empty, anything else is a parse error. -/
def parseStep (rc : Finset (Nat × Nat) × Finset (Nat × Nat)) (pos : Nat × Nat)
    (c : Char) : Option (Finset (Nat × Nat) × Finset (Nat × Nat)) :=
  if c = 'O' then some (insert pos rc.1, rc.2)
  else if c = '#' then some (rc.1, insert pos rc.2)
  else if c = '.' then some rc
  else none

/-- Embeds `parse` from `day14.rs`, on the list of input lines. -/
def parse (lines : List (List Char)) : Option Platform :=
  (Grid.parseGridLines parseStep 0 lines ((∅, ∅), 0, 0)).map
    (fun st => ⟨st.2.1, st.2.2, st.1.1, st.1.2⟩)

end Day14

namespace Day17

/-- The map of `day17.rs`: bounds plus the per-cell entry costs, embedded as
an association list (all keys are distinct, so this is faithful to the
`HashMap`). -/
structure Map where
  width : Nat
  height : Nat
  blocks : List ((Nat × Nat) × Nat)
deriving DecidableEq

/-- Per-character action of `Map::from_str` in `day17.rs`: a decimal digit is
the cell's cost, anything else is a parse error. -/
def parseStep (blocks : List ((Nat × Nat) × Nat)) (pos : Nat × Nat) (c : Char) :
    Option (List ((Nat × Nat) × Nat)) :=
  if c.isDigit then some (blocks ++ [(pos, c.toNat - '0'.toNat)]) else none

/-- Embeds `Map::from_str` from `day17.rs`, on the list of input lines. -/
def from_str (lines : List (List Char)) : Option Map :=
  (Grid.parseGridLines parseStep 0 lines ([], 0, 0)).map
    (fun st => ⟨st.2.1, st.2.2, st.1⟩)

end Day17

namespace Day16

/-- Mirror tiles of `day16.rs`. -/
inductive Mirror where
  | splitUpDown
  | splitLeftRight
  | reflectBackslash
  | reflectSlash
deriving DecidableEq

/-- The map of `day16.rs`: bounds plus the mirror at each non-empty cell. -/
structure Map where
  width : Nat
  height : Nat
  mirrors : List ((Nat × Nat) × Mirror)
deriving DecidableEq

/-- Per-character action of `Map::from_str` in `day16.rs`. -/
def parseStep (mirrors : List ((Nat × Nat) × Mirror)) (pos : Nat × Nat)
    (c : Char) : Option (List ((Nat × Nat) × Mirror)) :=
  if c = '/' then some (mirrors ++ [(pos, Mirror.reflectSlash)])
  else if c = '\\' then some (mirrors ++ [(pos, Mirror.reflectBackslash)])
  else if c = '|' then some (mirrors ++ [(pos, Mirror.splitUpDown)])
  else if c = '-' then some (mirrors ++ [(pos, Mirror.splitLeftRight)])
  else if c = '.' then some mirrors
  else none

/-- Embeds `Map::from_str` from `day16.rs`, on the list of input lines. -/
def from_str (lines : List (List Char)) : Option Map :=
  (Grid.parseGridLines parseStep 0 lines ([], 0, 0)).map
    (fun st => ⟨st.2.1, st.2.2, st.1⟩)

end Day16

/-- C4 counterexample: on the accepted ragged input `[".." , "."]` the day14
parser stores width 1 (the length of the last line), not 2 (one plus the
maximum x seen on any line, the length of the longest line), and stores
height 2 (the number of lines), not 1 plus the number of lines. -/
theorem grid_parser_width_not_longest_line :
    (Day14.parse [['.', '.'], ['.']]).map Day14.Platform.width = some 1
      ∧ Grid.claimedWidth [['.', '.'], ['.']] = 2
      ∧ ¬ (1 : Nat) = 2
      ∧ (Day14.parse [['.', '.'], ['.']]).map Day14.Platform.height = some 2
      ∧ [['.', '.'], ['.']].length + 1 = 3
      ∧ ¬ (2 : Nat) = 3 := by
  refine ⟨?_, by decide, by decide, ?_, by decide, by decide⟩ <;> rfl

/-- C4 (amended): for every input accepted by one of the grid parsers of
day14, day16 and day17, the stored width equals the length of the last line
containing at least one character (0 if there is none) — the running width is
overwritten on every character — and the stored height equals the number of
lines.  On inputs whose lines all have equal length this coincides with the
claimed one-plus-maximum-x, but not on ragged inputs. -/
theorem grid_parsers_dims (lines : List (List Char)) :
    (∀ p, Day14.parse lines = some p →
        p.width = Grid.actualWidth lines ∧ p.height = lines.length)
      ∧ (∀ m, Day17.from_str lines = some m →
        m.width = Grid.actualWidth lines ∧ m.height = lines.length)
      ∧ (∀ m, Day16.from_str lines = some m →
        m.width = Grid.actualWidth lines ∧ m.height = lines.length) := by
  have hgen : ∀ {σ : Type} (step : σ → Nat × Nat → Char → Option σ) (s0 : σ)
      (out : σ × Nat × Nat),
      Grid.parseGridLines step 0 lines (s0, 0, 0) = some out →
      out.2.1 = Grid.actualWidth lines ∧ out.2.2 = lines.length := by
    intro σ step s0 out h
    have := Grid.parseGridLines_dims step lines 0 (s0, 0, 0) out h
    rcases this with ⟨h1, h2⟩
    refine ⟨h1, ?_⟩
    by_cases he : lines.isEmpty = true
    · rw [if_pos he] at h2
      rw [List.isEmpty_iff.mp he]
      simpa using h2
    · rw [if_neg he] at h2
      simpa using h2
  refine ⟨?_, ?_, ?_⟩
  · intro p hp
    simp only [Day14.parse, Option.map_eq_some'] at hp
    obtain ⟨st, hst, hmap⟩ := hp
    have := hgen Day14.parseStep (∅, ∅) st hst
    rw [← hmap]
    exact this
  · intro m hm
    simp only [Day17.from_str, Option.map_eq_some'] at hm
    obtain ⟨st, hst, hmap⟩ := hm
    have := hgen Day17.parseStep [] st hst
    rw [← hmap]
    exact this
  · intro m hm
    simp only [Day16.from_str, Option.map_eq_some'] at hm
    obtain ⟨st, hst, hmap⟩ := hm
    have := hgen Day16.parseStep [] st hst
    rw [← hmap]
    exact this

/-- Witness for C4 (amended) at the concrete accepted input
`["O#", ".."]`: a 2 by 2 grid. -/
theorem grid_parsers_dims_witness :
    (⟨2, 2, {(0, 0)}, {(1, 0)}⟩ : Day14.Platform).width
        = Grid.actualWidth [['O', '#'], ['.', '.']]
      ∧ (⟨2, 2, {(0, 0)}, {(1, 0)}⟩ : Day14.Platform).height
        = [['O', '#'], ['.', '.']].length :=
  (grid_parsers_dims [['O', '#'], ['.', '.']]).1 ⟨2, 2, {(0, 0)}, {(1, 0)}⟩ (by decide)

namespace Day21

/-- The garden map of `day21.rs`: signed bounds, the start cell and the wall
set. -/
structure Map where
  width : Int
  height : Int
  start : Int × Int
  walls : Finset (Int × Int)
deriving DecidableEq

/-- A visited/queue entry: a (possibly unbounded) logical coordinate together
with the step count at which it was first reached. -/
abbrev Entry := (Int × Int) × Nat

/-- The neighbor candidates of `num_reachable_gardens` in `day21.rs`, in
source order Up, Down, Left, Right.  With `infinite = true` the four
neighbors are returned unconditionally (unbounded logical coordinates);
otherwise each is guarded by the corresponding bound check. -/
def neighborsOf (m : Map) (infinite : Bool) (x y : Int) : List (Int × Int) :=
  if infinite then
    [(x, y - 1), (x, y + 1), (x - 1, y), (x + 1, y)]
  else
    ([if 0 < y then some (x, y - 1) else none,
      if y + 1 < m.height then some (x, y + 1) else none,
      if 0 < x then some (x - 1, y) else none,
      if x + 1 < m.width then some (x + 1, y) else none]).filterMap id

/-- The body of the `for n in neighbors` loop of `num_reachable_gardens`:
fold over the neighbor candidates, skipping a neighbor whose coordinate,
reduced modulo width/height by Euclidean remainder, is a wall, or whose
unreduced coordinate is already a visited key; otherwise record it (in the
visited map and in the list of entries pushed to the queue) under the
unreduced coordinate with step count `steps + 1`. -/
def expandNeighbors (m : Map) (steps : Nat) (v : List Entry)
    (ns : List (Int × Int)) : List Entry × List Entry :=
  ns.foldl
    (fun acc n =>
      if (n.1.emod m.width, n.2.emod m.height) ∈ m.walls ∨ (acc.1.lookup n).isSome
      then acc
      else (acc.1 ++ [(n, steps + 1)], acc.2 ++ [(n, steps + 1)]))
    (v, [])

/-- The `while let Some(...) = to_visit.pop_front()` loop of
`num_reachable_gardens`, with explicit fuel (the Rust loop terminates because
every enqueued coordinate lies within `step_limit` Manhattan distance of the
start, bounding the number of visited-map insertions; the fuel chosen in
`bfsVisited` exceeds that bound). -/
def bfsLoop (m : Map) (step_limit : Nat) (infinite : Bool) :
    Nat → List Entry → List Entry → List Entry
  | 0, _, visited => visited
  | _ + 1, [], visited => visited
  | fuel + 1, ((x, y), steps) :: rest, visited =>
    if step_limit ≤ steps then bfsLoop m step_limit infinite fuel rest visited
    else
      let vp := expandNeighbors m steps visited (neighborsOf m infinite x y)
      bfsLoop m step_limit infinite fuel (rest ++ vp.2) vp.1

/-- Fuel bound: the number of loop iterations is at most one plus the number
of visited-map insertions, and every visited key is within Manhattan distance
`step_limit` of the start. -/
def bfsFuel (step_limit : Nat) : Nat :=
  (2 * step_limit + 3) * (2 * step_limit + 3) + step_limit + 3

/-- The visited map produced by the search loop of `num_reachable_gardens`,
seeded with the start cell at step count 0. -/
def bfsVisited (m : Map) (step_limit : Nat) (infinite : Bool) : List Entry :=
  bfsLoop m step_limit infinite (bfsFuel step_limit) [(m.start, 0)] [(m.start, 0)]

/-- Embeds `Map::num_reachable_gardens` from `day21.rs`: run the search, then count
the visited values whose parity matches the step limit's parity. -/
def num_reachable_gardens (m : Map) (step_limit : Nat) (infinite : Bool) : Nat :=
  (((bfsVisited m step_limit infinite).map Prod.snd).filter
    (fun steps => steps % 2 == step_limit % 2)).length

end Day21

section ListLookup

variable {K V : Type} [BEq K] [LawfulBEq K]

theorem lookup_append_isSome (l1 l2 : List (K × V)) (k : K) :
    ((l1 ++ l2).lookup k).isSome
      = ((l1.lookup k).isSome || (l2.lookup k).isSome) := by
  induction l1 with
  | nil => simp
  | cons e rest ih =>
    obtain ⟨k', v'⟩ := e
    by_cases h : k == k'
    · simp [List.lookup, h]
    · simp only [List.cons_append, List.lookup]
      rw [Bool.of_not_eq_true h]
      exact ih

theorem lookup_isSome_iff (l : List (K × V)) (k : K) :
    (l.lookup k).isSome ↔ ∃ v, (k, v) ∈ l := by
  induction l with
  | nil => simp [List.lookup]
  | cons e rest ih =>
    obtain ⟨k', v'⟩ := e
    by_cases h : k == k'
    · have hk : k = k' := eq_of_beq h
      subst hk
      simp [List.lookup]
    · simp only [List.lookup]
      rw [Bool.of_not_eq_true h]
      rw [ih]
      constructor
      · rintro ⟨v, hv⟩
        exact ⟨v, List.mem_cons_of_mem _ hv⟩
      · rintro ⟨v, hv⟩
        rcases List.mem_cons.mp hv with heq | hmem
        · exfalso
          apply h
          rw [Prod.mk.injEq] at heq
          exact beq_iff_eq.mpr heq.1
        · exact ⟨v, hmem⟩

theorem lookup_append_none (l1 l2 : List (K × V)) (k : K)
    (h : ((l1 ++ l2).lookup k) = none) : l1.lookup k = none := by
  have := lookup_append_isSome l1 l2 k
  rw [h] at this
  simp only [Option.isSome_none] at this
  rcases ho : l1.lookup k with _ | v
  · rfl
  · rw [ho] at this
    simp at this

end ListLookup

namespace Day21

/-- Characterization of the neighbor fold: the final visited map is the
initial one extended by the newly recorded entries, and every new entry
carries step count `steps + 1`, has its key among the neighbor candidates,
passes the wrapped wall test, and was not a key of the initial visited map. -/
theorem expand_spec (m : Map) (steps : Nat) (ns : List (Int × Int)) :
    ∀ (w p : List Entry), ∃ add : List Entry,
      ns.foldl
        (fun acc n =>
          if (n.1.emod m.width, n.2.emod m.height) ∈ m.walls ∨ (acc.1.lookup n).isSome
          then acc
          else (acc.1 ++ [(n, steps + 1)], acc.2 ++ [(n, steps + 1)]))
        (w, p) = (w ++ add, p ++ add)
      ∧ ∀ e ∈ add, e.2 = steps + 1 ∧ e.1 ∈ ns
          ∧ (e.1.1.emod m.width, e.1.2.emod m.height) ∉ m.walls
          ∧ w.lookup e.1 = none := by
  induction ns with
  | nil =>
    intro w p
    exact ⟨[], by simp, by simp⟩
  | cons n ns ih =>
    intro w p
    simp only [List.foldl_cons]
    by_cases hg : (n.1.emod m.width, n.2.emod m.height) ∈ m.walls
        ∨ ((w, p).1.lookup n).isSome = true
    · rw [if_pos hg]
      obtain ⟨add, heq, hprops⟩ := ih w p
      exact ⟨add, heq, fun e he =>
        ⟨(hprops e he).1, List.mem_cons_of_mem _ (hprops e he).2.1,
         (hprops e he).2.2.1, (hprops e he).2.2.2⟩⟩
    · rw [if_neg hg]
      push_neg at hg
      obtain ⟨hwall, hlook⟩ := hg
      obtain ⟨add, heq, hprops⟩ := ih (w ++ [(n, steps + 1)]) (p ++ [(n, steps + 1)])
      refine ⟨(n, steps + 1) :: add, ?_, ?_⟩
      · rw [heq]
        simp
      · intro e he
        rcases List.mem_cons.mp he with rfl | hmem
        · refine ⟨rfl, List.mem_cons_self _ _, hwall, ?_⟩
          rcases ho : w.lookup n with _ | v
          · rfl
          · rw [ho] at hlook
            simp at hlook
        · have h3 := hprops e hmem
          exact ⟨h3.1, List.mem_cons_of_mem _ h3.2.1, h3.2.2.1,
            lookup_append_none w [(n, steps + 1)] e.1 h3.2.2.2⟩

/-- On a wall-free map, after the neighbor fold every neighbor candidate is a
key of the visited map. -/
theorem expand_covers (m : Map) (steps : Nat) (hw : m.walls = ∅)
    (ns : List (Int × Int)) :
    ∀ (w p : List Entry) (n : Int × Int), n ∈ ns →
      (((ns.foldl
        (fun acc n =>
          if (n.1.emod m.width, n.2.emod m.height) ∈ m.walls ∨ (acc.1.lookup n).isSome
          then acc
          else (acc.1 ++ [(n, steps + 1)], acc.2 ++ [(n, steps + 1)]))
        (w, p)).1).lookup n).isSome := by
  induction ns with
  | nil =>
    intro w p n hn
    simp at hn
  | cons n0 ns ih =>
    intro w p n hn
    simp only [List.foldl_cons]
    by_cases hg : (n0.1.emod m.width, n0.2.emod m.height) ∈ m.walls
        ∨ ((w, p).1.lookup n0).isSome = true
    · rw [if_pos hg]
      rcases List.mem_cons.mp hn with rfl | hmem
      · rcases hg with hwall | hsome
        · rw [hw] at hwall
          simp at hwall
        · obtain ⟨add, heq, _⟩ := expand_spec m steps ns w p
          rw [heq]
          simp only
          rw [lookup_append_isSome]
          simp only at hsome
          rw [hsome]
          simp
      · exact ih w p n hmem
    · rw [if_neg hg]
      rcases List.mem_cons.mp hn with rfl | hmem
      · obtain ⟨add, heq, _⟩ := expand_spec m steps ns (w ++ [(n, steps + 1)])
          (p ++ [(n, steps + 1)])
        rw [heq]
        simp only
        rw [lookup_append_isSome, lookup_append_isSome]
        have : (([(n, steps + 1)] : List Entry).lookup n).isSome = true := by
          simp [List.lookup]
        rw [this]
        simp
      · exact ih (w ++ [(n0, steps + 1)]) (p ++ [(n0, steps + 1)]) n hmem

/-- Every entry the search loop ever records is either the start entry or
passed the wall test on its modulo-reduced coordinate; the recorded key
itself is the unreduced coordinate. -/
theorem bfsLoop_wall_invariant (m : Map) (limit : Nat) (inf : Bool) :
    ∀ (fuel : Nat) (q v : List Entry),
      (∀ e ∈ v, e.1 = m.start ∨ (e.1.1.emod m.width, e.1.2.emod m.height) ∉ m.walls) →
      ∀ e ∈ bfsLoop m limit inf fuel q v,
        e.1 = m.start ∨ (e.1.1.emod m.width, e.1.2.emod m.height) ∉ m.walls := by
  intro fuel
  induction fuel with
  | zero =>
    intro q v hv e he
    exact hv e he
  | succ fuel ih =>
    intro q v hv
    match q with
    | [] => exact hv
    | ((x, y), steps) :: rest =>
      simp only [bfsLoop]
      by_cases hl : limit ≤ steps
      · rw [if_pos hl]
        exact ih rest v hv
      · rw [if_neg hl]
        obtain ⟨add, heq, hprops⟩ := expand_spec m steps (neighborsOf m inf x y) v []
        simp only [expandNeighbors, heq]
        apply ih
        intro e he
        rcases List.mem_append.mp he with hold | hnew
        · exact hv e hold
        · exact Or.inr (hprops e hnew).2.2.1

end Day21

/-- C9: `num_reachable_gardens` returns the count of visited entries whose
recorded step count has the same parity as the step limit, not the count of
all visited cells: on the wall-free 2 by 2 map with start `(0, 0)` and step
limit 1 it returns 2 although 3 cells are visited. -/
theorem num_reachable_counts_matching_parity :
    (∀ (m : Day21.Map) (limit : Nat) (inf : Bool),
        Day21.num_reachable_gardens m limit inf
          = (((Day21.bfsVisited m limit inf).map Prod.snd).filter
              (fun steps => steps % 2 == limit % 2)).length)
      ∧ Day21.num_reachable_gardens ⟨2, 2, (0, 0), ∅⟩ 1 false = 2
      ∧ (Day21.bfsVisited ⟨2, 2, (0, 0), ∅⟩ 1 false).length = 3
      ∧ Day21.num_reachable_gardens ⟨2, 2, (0, 0), ∅⟩ 1 false
          ≠ (Day21.bfsVisited ⟨2, 2, (0, 0), ∅⟩ 1 false).length :=
  ⟨fun _ _ _ => rfl, by decide, by decide, by decide⟩

/-- C6: in the infinite-tiling search, every recorded entry other than the
start has its coordinate reduced with the Euclidean remainder modulo
width/height for the wall test, while the visited key and step count use the
unreduced coordinate; concretely, on the 2 by 2 map with a wall at `(1, 0)`
and step limit 1 the visited map is exactly
`[((0,0),0), ((0,-1),1), ((0,1),1)]`: the unbounded key `(0, -1)` is kept
unreduced, and the neighbor `(-1, 0)` was rejected because its Euclidean
reduction `(1, 0)` is a wall. -/
theorem infinite_search_wraps_wall_lookup_only :
    (∀ (m : Day21.Map) (limit : Nat) (c : Int × Int) (s : Nat),
        (c, s) ∈ Day21.bfsVisited m limit true → c ≠ m.start →
        (c.1.emod m.width, c.2.emod m.height) ∉ m.walls)
      ∧ Day21.bfsVisited ⟨2, 2, (0, 0), {(1, 0)}⟩ 1 true
          = [((0, 0), 0), ((0, -1), 1), ((0, 1), 1)] := by
  constructor
  · intro m limit c s hmem hne
    have hinv := Day21.bfsLoop_wall_invariant m limit true (Day21.bfsFuel limit)
      [(m.start, 0)] [(m.start, 0)]
      (by
        intro e he
        rcases List.mem_singleton.mp he with rfl
        exact Or.inl rfl)
      (c, s) hmem
    rcases hinv with h | h
    · exact absurd h hne
    · exact h
  · decide

/-- Witness for C6 at the concrete map: the entry `((0, -1), 1)` is recorded
and its Euclidean reduction `(0, 1)` is indeed not a wall. -/
theorem infinite_search_wraps_wall_lookup_only_witness :
    (((0 : Int)).emod 2, ((-1 : Int)).emod 2)
      ∉ (({((1 : Int), (0 : Int))}) : Finset (Int × Int)) :=
  infinite_search_wraps_wall_lookup_only.1 ⟨2, 2, (0, 0), {(1, 0)}⟩ 1 (0, -1) 1
    (by decide) (by decide)

namespace Day21

/-- Manhattan distance between two signed coordinates. -/
def dist (a b : Int × Int) : Nat := (a.1 - b.1).natAbs + (a.2 - b.2).natAbs

/-- A coordinate inside the parsed bounds. -/
def inBounds (m : Map) (c : Int × Int) : Prop :=
  0 ≤ c.1 ∧ c.1 < m.width ∧ 0 ≤ c.2 ∧ c.2 < m.height

/-- The cells the search can legally stand on: every cell in infinite mode,
the in-bounds cells otherwise. -/
def admissible (m : Map) (inf : Bool) (c : Int × Int) : Prop :=
  inf = true ∨ inBounds m c

theorem dist_self (s : Int × Int) : dist s s = 0 := by
  simp [dist]

theorem dist_eq_zero {s c : Int × Int} (h : dist s c = 0) : c = s := by
  obtain ⟨a, b⟩ := s
  obtain ⟨a', b'⟩ := c
  simp only [dist] at h
  have h1 : a = a' := by omega
  have h2 : b = b' := by omega
  simp [h1, h2]

/-- In finite mode a neighbor is one of the four adjacent cells, each with
its bound-check guard established. -/
theorem mem_neighborsOf_false {m : Map} {x y : Int} {n : Int × Int}
    (h : n ∈ neighborsOf m false x y) :
    (n = (x, y - 1) ∧ 0 < y) ∨ (n = (x, y + 1) ∧ y + 1 < m.height)
      ∨ (n = (x - 1, y) ∧ 0 < x) ∨ (n = (x + 1, y) ∧ x + 1 < m.width) := by
  simp only [neighborsOf, Bool.false_eq_true, if_false] at h
  rw [List.mem_filterMap] at h
  obtain ⟨b, hb, hid⟩ := h
  simp only [id_eq] at hid
  subst hid
  simp only [List.mem_cons, List.mem_singleton, List.not_mem_nil, or_false] at hb
  rcases hb with hb | hb | hb | hb <;> split_ifs at hb with hg <;>
    simp only [Option.some.injEq] at hb
  · exact Or.inl ⟨hb, hg⟩
  · exact Or.inr (Or.inl ⟨hb, hg⟩)
  · exact Or.inr (Or.inr (Or.inl ⟨hb, hg⟩))
  · exact Or.inr (Or.inr (Or.inr ⟨hb, hg⟩))

/-- In either mode a neighbor is one of the four adjacent cells. -/
theorem mem_neighborsOf_cases {m : Map} {inf : Bool} {x y : Int} {n : Int × Int}
    (h : n ∈ neighborsOf m inf x y) :
    n = (x, y - 1) ∨ n = (x, y + 1) ∨ n = (x - 1, y) ∨ n = (x + 1, y) := by
  cases inf with
  | true =>
    simp only [neighborsOf, if_pos] at h
    simpa using h
  | false =>
    rcases mem_neighborsOf_false h with ⟨h1, _⟩ | ⟨h1, _⟩ | ⟨h1, _⟩ | ⟨h1, _⟩
    · exact Or.inl h1
    · exact Or.inr (Or.inl h1)
    · exact Or.inr (Or.inr (Or.inl h1))
    · exact Or.inr (Or.inr (Or.inr h1))

theorem up_mem_neighborsOf (m : Map) (inf : Bool) (x y : Int)
    (h : inf = true ∨ 0 < y) : (x, y - 1) ∈ neighborsOf m inf x y := by
  cases inf with
  | true => simp [neighborsOf]
  | false =>
    rcases h with h | h
    · cases h
    · simp only [neighborsOf, Bool.false_eq_true, if_false]
      rw [List.mem_filterMap]
      exact ⟨some (x, y - 1), by simp [if_pos h], rfl⟩

theorem down_mem_neighborsOf (m : Map) (inf : Bool) (x y : Int)
    (h : inf = true ∨ y + 1 < m.height) : (x, y + 1) ∈ neighborsOf m inf x y := by
  cases inf with
  | true => simp [neighborsOf]
  | false =>
    rcases h with h | h
    · cases h
    · simp only [neighborsOf, Bool.false_eq_true, if_false]
      rw [List.mem_filterMap]
      exact ⟨some (x, y + 1), by simp [if_pos h], rfl⟩

theorem left_mem_neighborsOf (m : Map) (inf : Bool) (x y : Int)
    (h : inf = true ∨ 0 < x) : (x - 1, y) ∈ neighborsOf m inf x y := by
  cases inf with
  | true => simp [neighborsOf]
  | false =>
    rcases h with h | h
    · cases h
    · simp only [neighborsOf, Bool.false_eq_true, if_false]
      rw [List.mem_filterMap]
      exact ⟨some (x - 1, y), by simp [if_pos h], rfl⟩

theorem right_mem_neighborsOf (m : Map) (inf : Bool) (x y : Int)
    (h : inf = true ∨ x + 1 < m.width) : (x + 1, y) ∈ neighborsOf m inf x y := by
  cases inf with
  | true => simp [neighborsOf]
  | false =>
    rcases h with h | h
    · cases h
    · simp only [neighborsOf, Bool.false_eq_true, if_false]
      rw [List.mem_filterMap]
      exact ⟨some (x + 1, y), by simp [if_pos h], rfl⟩

/-- A grid step changes the Manhattan distance to any fixed point by exactly
one. -/
theorem neighbor_dist (s : Int × Int) {m : Map} {inf : Bool} {x y : Int}
    {n : Int × Int} (h : n ∈ neighborsOf m inf x y) :
    dist s n = dist s (x, y) + 1 ∨ dist s n + 1 = dist s (x, y) := by
  obtain ⟨a, b⟩ := s
  rcases mem_neighborsOf_cases h with rfl | rfl | rfl | rfl <;>
    simp only [dist] <;> omega

/-- Neighbors of an admissible cell are admissible. -/
theorem neighbor_admissible {m : Map} {inf : Bool} {x y : Int} {n : Int × Int}
    (hadm : admissible m inf (x, y)) (h : n ∈ neighborsOf m inf x y) :
    admissible m inf n := by
  cases inf with
  | true => exact Or.inl rfl
  | false =>
    rcases hadm with hadm | hadm
    · cases hadm
    · obtain ⟨h1, h2, h3, h4⟩ := hadm
      refine Or.inr ?_
      rcases mem_neighborsOf_false h with ⟨rfl, hg⟩ | ⟨rfl, hg⟩ | ⟨rfl, hg⟩ | ⟨rfl, hg⟩ <;>
        exact ⟨by simp only; omega, by simp only; omega, by simp only; omega,
          by simp only; omega⟩

end Day21

namespace Day21

/-- Every admissible cell at positive Manhattan distance from the start has
an admissible neighbor-predecessor one step closer to the start, of which it
is itself a legal neighbor.  (For finite mode this uses that the start is in
bounds and that the bounding rectangle is convex.) -/
theorem inBounds_mk (m : Map) (a b : Int) :
    inBounds m (a, b) ↔ 0 ≤ a ∧ a < m.width ∧ 0 ≤ b ∧ b < m.height :=
  Iff.rfl

theorem exists_parent {m : Map} {inf : Bool}
    (hstart : admissible m inf m.start) (u : Int × Int)
    (hadm : admissible m inf u) (hd : 1 ≤ dist m.start u) :
    ∃ p : Int × Int, admissible m inf p ∧ dist m.start p + 1 = dist m.start u
      ∧ u ∈ neighborsOf m inf p.1 p.2 := by
  obtain ⟨ux, uy⟩ := u
  have hub : inf = true ∨ (0 ≤ ux ∧ ux < m.width ∧ 0 ≤ uy ∧ uy < m.height) := by
    rcases hadm with hi | hb
    · exact Or.inl hi
    · exact Or.inr ((inBounds_mk m ux uy).mp hb)
  have hsb : inf = true
      ∨ (0 ≤ m.start.1 ∧ m.start.1 < m.width ∧ 0 ≤ m.start.2 ∧ m.start.2 < m.height) := by
    rcases hstart with hi | hb
    · exact Or.inl hi
    · obtain ⟨h1, h2, h3, h4⟩ := hb
      exact Or.inr ⟨h1, h2, h3, h4⟩
  rcases lt_trichotomy m.start.1 ux with hx | hx | hx
  · refine ⟨(ux - 1, uy), ?_, ?_, ?_⟩
    · rcases hub with hi | hb
      · exact Or.inl hi
      · rcases hsb with hi | hsb'
        · exact Or.inl hi
        · exact Or.inr ((inBounds_mk m _ _).mpr (by omega))
    · simp only [dist]
      omega
    · have hm := right_mem_neighborsOf m inf (ux - 1) uy
        (by
          rcases hub with hi | hb
          · exact Or.inl hi
          · exact Or.inr (by omega))
      have he : (ux - 1 + 1 : Int) = ux := by omega
      rw [he] at hm
      exact hm
  · rcases lt_trichotomy m.start.2 uy with hy | hy | hy
    · refine ⟨(ux, uy - 1), ?_, ?_, ?_⟩
      · rcases hub with hi | hb
        · exact Or.inl hi
        · rcases hsb with hi | hsb'
          · exact Or.inl hi
          · exact Or.inr ((inBounds_mk m _ _).mpr (by omega))
      · simp only [dist]
        omega
      · have hm := down_mem_neighborsOf m inf ux (uy - 1)
          (by
            rcases hub with hi | hb
            · exact Or.inl hi
            · exact Or.inr (by omega))
        have he : (uy - 1 + 1 : Int) = uy := by omega
        rw [he] at hm
        exact hm
    · exfalso
      simp only [dist] at hd
      omega
    · refine ⟨(ux, uy + 1), ?_, ?_, ?_⟩
      · rcases hub with hi | hb
        · exact Or.inl hi
        · rcases hsb with hi | hsb'
          · exact Or.inl hi
          · exact Or.inr ((inBounds_mk m _ _).mpr (by omega))
      · simp only [dist]
        omega
      · have hm := up_mem_neighborsOf m inf ux (uy + 1)
          (by
            rcases hub with hi | hb
            · exact Or.inl hi
            · exact Or.inr (by omega))
        have he : (uy + 1 - 1 : Int) = uy := by omega
        rw [he] at hm
        exact hm
  · refine ⟨(ux + 1, uy), ?_, ?_, ?_⟩
    · rcases hub with hi | hb
      · exact Or.inl hi
      · rcases hsb with hi | hsb'
        · exact Or.inl hi
        · exact Or.inr ((inBounds_mk m _ _).mpr (by omega))
    · simp only [dist]
      omega
    · have hm := left_mem_neighborsOf m inf (ux + 1) uy
        (by
          rcases hub with hi | hb
          · exact Or.inl hi
          · exact Or.inr (by omega))
      have he : (ux + 1 - 1 : Int) = ux := by omega
      rw [he] at hm
      exact hm

end Day21

namespace Day21

theorem mem_lookup_isSome {v : List Entry} {k : Int × Int} {s : Nat}
    (h : (k, s) ∈ v) : (v.lookup k).isSome :=
  (lookup_isSome_iff v k).mpr ⟨s, h⟩

theorem lookup_isSome_mono {v w : List Entry} {k : Int × Int}
    (h : (v.lookup k).isSome) : ((v ++ w).lookup k).isSome := by
  rw [lookup_append_isSome, h]
  simp

/-- The inductive invariant of the search loop of `num_reachable_gardens` on
a wall-free map: visited entries record the Manhattan distance from the
start, the FIFO queue is sorted by step count with spread at most one and its
entries are visited and within the step limit, every visited entry is either
still queued, capped by the limit, or fully expanded, and every admissible
cell strictly closer to the start than the queue head is already visited. -/
structure BfsInv (m : Map) (inf : Bool) (limit : Nat) (q v : List Entry) :
    Prop where
  vDist : ∀ e ∈ v, e.2 = dist m.start e.1
  vAdm : ∀ e ∈ v, admissible m inf e.1
  qSub : ∀ e ∈ q, e ∈ v
  qSorted : q.Pairwise (fun a b => a.2 ≤ b.2)
  qSpread : ∀ a ∈ q, ∀ b ∈ q, a.2 ≤ b.2 + 1
  qLim : ∀ e ∈ q, e.2 ≤ limit
  closed : ∀ e ∈ v, e ∈ q ∨ limit ≤ e.2
      ∨ ∀ n ∈ neighborsOf m inf e.1.1 e.1.2, (v.lookup n).isSome
  frontier : ∀ hd tl, q = hd :: tl → ∀ c, admissible m inf c →
      dist m.start c < hd.2 → (v.lookup c).isSome

/-- The invariant survives discarding a queue entry that has reached the
step limit. -/
theorem BfsInv.skip {m : Map} {inf : Bool} {limit : Nat} {hd : Entry}
    {rest v : List Entry} (inv : BfsInv m inf limit (hd :: rest) v)
    (hlim : limit ≤ hd.2) : BfsInv m inf limit rest v := by
  constructor
  · exact inv.vDist
  · exact inv.vAdm
  · exact fun e he => inv.qSub e (List.mem_cons_of_mem _ he)
  · exact inv.qSorted.of_cons
  · exact fun a ha b hb =>
      inv.qSpread a (List.mem_cons_of_mem _ ha) b (List.mem_cons_of_mem _ hb)
  · exact fun e he => inv.qLim e (List.mem_cons_of_mem _ he)
  · intro e he
    rcases inv.closed e he with hq | hrest
    · rcases List.mem_cons.mp hq with rfl | hq'
      · exact Or.inr (Or.inl hlim)
      · exact Or.inl hq'
    · exact Or.inr hrest
  · intro hd' tl' hq c hc hdist
    have hle : hd.2 ≤ hd'.2 := by
      have := inv.qSorted
      rw [hq] at this
      exact (List.pairwise_cons.mp this).1 hd' (List.mem_cons_self _ _)
    have hl2 : hd'.2 ≤ limit := inv.qLim hd' (by rw [hq]; exact List.mem_cons_of_mem _ (List.mem_cons_self _ _))
    exact inv.frontier hd rest rfl c hc (by omega)

/-- The invariant survives expanding the queue head when it is below the
step limit. -/
theorem BfsInv.expand {m : Map} {inf : Bool} {limit : Nat}
    (hw : m.walls = ∅) (hstart : admissible m inf m.start)
    {x y : Int} {steps : Nat} {rest v : List Entry}
    (inv : BfsInv m inf limit (((x, y), steps) :: rest) v)
    (hlt : steps < limit) :
    BfsInv m inf limit
      (rest ++ (expandNeighbors m steps v (neighborsOf m inf x y)).2)
      (expandNeighbors m steps v (neighborsOf m inf x y)).1 := by
  obtain ⟨add, heq, hprops⟩ := expand_spec m steps (neighborsOf m inf x y) v []
  have heq2 : expandNeighbors m steps v (neighborsOf m inf x y) = (v ++ add, add) := by
    rw [expandNeighbors, heq]
    simp
  rw [heq2]
  simp only
  have hhdv : ((x, y), steps) ∈ v := inv.qSub _ (List.mem_cons_self _ _)
  have hsteps : steps = dist m.start (x, y) := inv.vDist _ hhdv
  have hadm : admissible m inf (x, y) := inv.vAdm _ hhdv
  have haddAdm : ∀ e ∈ add, admissible m inf e.1 := by
    intro e he
    exact neighbor_admissible hadm (hprops e he).2.1
  have haddDist : ∀ e ∈ add, dist m.start e.1 = steps + 1 := by
    intro e he
    obtain ⟨h1, h2, _, h4⟩ := hprops e he
    rcases neighbor_dist m.start h2 with hgt | hlt2
    · rw [hgt, ← hsteps]
    · exfalso
      have hfr := inv.frontier _ rest rfl e.1 (neighbor_admissible hadm h2)
        (by omega)
      rw [h4] at hfr
      simp at hfr
  have hrest_le : ∀ a ∈ rest, steps ≤ a.2 := by
    intro a ha
    exact (List.pairwise_cons.mp inv.qSorted).1 a ha
  have hrest_ub : ∀ a ∈ rest, a.2 ≤ steps + 1 := by
    intro a ha
    exact inv.qSpread a (List.mem_cons_of_mem _ ha) _ (List.mem_cons_self _ _)
  have hcovers : ∀ n ∈ neighborsOf m inf x y, ((v ++ add).lookup n).isSome := by
    intro n hn
    have := expand_covers m steps hw (neighborsOf m inf x y) v [] n hn
    rw [heq] at this
    simpa using this
  constructor
  · intro e he
    rcases List.mem_append.mp he with hv | ha
    · exact inv.vDist e hv
    · rw [(hprops e ha).1, haddDist e ha]
  · intro e he
    rcases List.mem_append.mp he with hv | ha
    · exact inv.vAdm e hv
    · exact haddAdm e ha
  · intro e he
    rcases List.mem_append.mp he with hr | ha
    · exact List.mem_append_left _ (inv.qSub e (List.mem_cons_of_mem _ hr))
    · exact List.mem_append_right _ ha
  · rw [List.pairwise_append]
    refine ⟨inv.qSorted.of_cons, ?_, ?_⟩
    · apply List.pairwise_of_forall_mem_list
      intro a ha b hb
      rw [(hprops a ha).1, (hprops b hb).1]
    · intro a ha b hb
      rw [(hprops b hb).1]
      exact hrest_ub a ha
  · intro a ha b hb
    have ha2 : a.2 ≤ steps + 1 := by
      rcases List.mem_append.mp ha with h | h
      · exact hrest_ub a h
      · rw [(hprops a h).1]
    have hb2 : steps ≤ b.2 := by
      rcases List.mem_append.mp hb with h | h
      · exact hrest_le b h
      · rw [(hprops b h).1]
        omega
    omega
  · intro e he
    rcases List.mem_append.mp he with h | h
    · exact inv.qLim e (List.mem_cons_of_mem _ h)
    · rw [(hprops e h).1]
      omega
  · intro e he
    rcases List.mem_append.mp he with hv | ha
    · rcases inv.closed e hv with hq | hcap | hexp
      · rcases List.mem_cons.mp hq with rfl | hq'
        · exact Or.inr (Or.inr hcovers)
        · exact Or.inl (List.mem_append_left _ hq')
      · exact Or.inr (Or.inl hcap)
      · exact Or.inr (Or.inr fun n hn => lookup_isSome_mono (hexp n hn))
    · exact Or.inl (List.mem_append_right _ ha)
  · intro hd' tl' hq' c hc hdist
    have hhd'mem : hd' ∈ rest ++ add := by
      rw [hq']
      exact List.mem_cons_self _ _
    have hhd'ub : hd'.2 ≤ steps + 1 := by
      rcases List.mem_append.mp hhd'mem with h | h
      · exact hrest_ub hd' h
      · rw [(hprops hd' h).1]
    have hcle : dist m.start c ≤ steps := by omega
    rcases Nat.lt_or_ge (dist m.start c) steps with hclt | hcge
    · exact lookup_isSome_mono (inv.frontier _ rest rfl c hc hclt)
    · have hceq : dist m.start c = steps := by omega
      rcases Nat.eq_zero_or_pos steps with hz | hpos
      · have hcs : c = m.start := dist_eq_zero (by omega)
        have hxy : (x, y) = m.start := dist_eq_zero (by omega)
        subst hcs
        rw [← hxy]
        exact lookup_isSome_mono (mem_lookup_isSome hhdv)
      · obtain ⟨p, hpadm, hpdist, hpmem⟩ := exists_parent hstart c hc (by omega)
        have hpv := inv.frontier _ rest rfl p hpadm (by omega)
        obtain ⟨sp, hspv⟩ := (lookup_isSome_iff v p).mp hpv
        have hsp : sp = dist m.start p := inv.vDist _ hspv
        rcases inv.closed _ hspv with hq | hcap | hexp
        · exfalso
          rcases List.mem_cons.mp hq with heqhd | hq'
          · have : sp = steps := congrArg Prod.snd heqhd
            omega
          · have := hrest_le _ hq'
            simp only at this
            omega
        · exfalso
          simp only at hcap
          omega
        · exact lookup_isSome_mono (hexp c hpmem)

end Day21

namespace Day21

/-- Any state satisfying the invariant keeps all visited step counts equal to
the Manhattan distance from the start, for any remaining fuel. -/
theorem bfsLoop_dist {m : Map} {inf : Bool} {limit : Nat}
    (hw : m.walls = ∅) (hstart : admissible m inf m.start) :
    ∀ (fuel : Nat) (q v : List Entry), BfsInv m inf limit q v →
      ∀ e ∈ bfsLoop m limit inf fuel q v, e.2 = dist m.start e.1 := by
  intro fuel
  induction fuel with
  | zero =>
    intro q v inv e he
    exact inv.vDist e he
  | succ fuel ih =>
    intro q v inv
    rcases q with _ | ⟨⟨⟨x, y⟩, steps⟩, rest⟩
    · simpa only [bfsLoop] using inv.vDist
    · simp only [bfsLoop]
      by_cases hl : limit ≤ steps
      · rw [if_pos hl]
        exact ih rest v (inv.skip hl)
      · rw [if_neg hl]
        exact ih _ _ (inv.expand hw hstart (by omega))

end Day21

/-- C5: on a map with an empty wall set, every in-bounds cell recorded by the
breadth-first traversal of `num_reachable_gardens` is first reached at a step
count equal to its Manhattan distance from the start (for a start cell the
search can legally stand on; in fact this holds for every recorded cell,
in-bounds or not). -/
theorem bfs_no_walls_first_reach_is_manhattan
    (m : Day21.Map) (limit : Nat) (inf : Bool)
    (hw : m.walls = ∅) (hstart : Day21.admissible m inf m.start) :
    ∀ e ∈ Day21.bfsVisited m limit inf,
      Day21.inBounds m e.1 → e.2 = Day21.dist m.start e.1 := by
  intro e he _
  refine Day21.bfsLoop_dist hw hstart (Day21.bfsFuel limit)
    [(m.start, 0)] [(m.start, 0)] ?_ e he
  constructor
  · intro f hf
    rcases List.mem_singleton.mp hf with rfl
    exact (Day21.dist_self m.start).symm
  · intro f hf
    rcases List.mem_singleton.mp hf with rfl
    exact hstart
  · exact fun f hf => hf
  · exact List.pairwise_singleton _ _
  · intro a ha b hb
    rcases List.mem_singleton.mp ha with rfl
    rcases List.mem_singleton.mp hb with rfl
    omega
  · intro f hf
    rcases List.mem_singleton.mp hf with rfl
    exact Nat.zero_le _
  · intro f hf
    rcases List.mem_singleton.mp hf with rfl
    exact Or.inl (List.mem_singleton_self _)
  · intro hd tl hq c hc hdist
    have : hd = (m.start, 0) := (List.cons.injEq _ _ _ _ ▸ hq.symm).1
    rw [this] at hdist
    simp at hdist

/-- Witness for C5 on the wall-free 2 by 2 map with start `(0, 0)` and step
limit 1: the recorded entry `((1, 0), 1)` indeed carries its Manhattan
distance 1. -/
theorem bfs_no_walls_first_reach_is_manhattan_witness :
    ((((1 : Int), (0 : Int)), 1) : Day21.Entry).2
      = Day21.dist ((0 : Int), (0 : Int)) ((1 : Int), (0 : Int)) :=
  bfs_no_walls_first_reach_is_manhattan ⟨2, 2, (0, 0), ∅⟩ 1 false rfl
    (Or.inr (by constructor <;> simp))
    (((1 : Int), (0 : Int)), 1) (by decide) (by constructor <;> simp)

namespace Day14

/-- The `while` scan of `tilt_north`: starting from row `y`, move up while
the row above is neither a round rock (in the current, already-erased set)
nor a cube rock. -/
def slideNorth (cube round : Finset (Nat × Nat)) (x : Nat) : Nat → Nat
  | 0 => 0
  | ny + 1 =>
    if (x, ny) ∈ round ∨ (x, ny) ∈ cube then ny + 1 else slideNorth cube round x ny

/-- The body of the double loop of `tilt_north` at one cell: if a round rock
sits at `(x, y)`, take it out and re-insert it at the end of its upward
slide. -/
def tiltNorthCell (cube round : Finset (Nat × Nat)) (x y : Nat) : Finset (Nat × Nat) :=
  if (x, y) ∈ round then
    insert (x, slideNorth cube (round.erase (x, y)) x y) (round.erase (x, y))
  else round

/-- The round-rock set after `tilt_north` (rows scanned top to bottom
starting at 1, columns left to right). -/
def tiltNorthRound (cube : Finset (Nat × Nat)) (w h : Nat)
    (r : Finset (Nat × Nat)) : Finset (Nat × Nat) :=
  (List.range' 1 (h - 1)).foldl
    (fun r y => (List.range w).foldl (fun r x => tiltNorthCell cube r x y) r) r

/-- The west scan of `tilt_cycle`. -/
def slideWest (cube round : Finset (Nat × Nat)) (y : Nat) : Nat → Nat
  | 0 => 0
  | nx + 1 =>
    if (nx, y) ∈ round ∨ (nx, y) ∈ cube then nx + 1 else slideWest cube round y nx

def tiltWestCell (cube round : Finset (Nat × Nat)) (x y : Nat) : Finset (Nat × Nat) :=
  if (x, y) ∈ round then
    insert (slideWest cube (round.erase (x, y)) y x, y) (round.erase (x, y))
  else round

def tiltWestRound (cube : Finset (Nat × Nat)) (w h : Nat)
    (r : Finset (Nat × Nat)) : Finset (Nat × Nat) :=
  (List.range' 1 (w - 1)).foldl
    (fun r x => (List.range h).foldl (fun r y => tiltWestCell cube r x y) r) r

/-- The south scan of `tilt_cycle`: move down while the row below is inside
the platform and free. -/
def slideSouth (cube round : Finset (Nat × Nat)) (h x y : Nat) : Nat :=
  if hc : y + 1 < h ∧ (x, y + 1) ∉ round ∧ (x, y + 1) ∉ cube then
    slideSouth cube round h x (y + 1)
  else y
termination_by h - y
decreasing_by omega

def tiltSouthCell (cube round : Finset (Nat × Nat)) (h x y : Nat) : Finset (Nat × Nat) :=
  if (x, y) ∈ round then
    insert (x, slideSouth cube (round.erase (x, y)) h x y) (round.erase (x, y))
  else round

def tiltSouthRound (cube : Finset (Nat × Nat)) (w h : Nat)
    (r : Finset (Nat × Nat)) : Finset (Nat × Nat) :=
  ((List.range (h - 1)).reverse).foldl
    (fun r y => (List.range w).foldl (fun r x => tiltSouthCell cube r h x y) r) r

/-- The east scan of `tilt_cycle`. -/
def slideEast (cube round : Finset (Nat × Nat)) (w y x : Nat) : Nat :=
  if hc : x + 1 < w ∧ (x + 1, y) ∉ round ∧ (x + 1, y) ∉ cube then
    slideEast cube round w y (x + 1)
  else x
termination_by w - x
decreasing_by omega

def tiltEastCell (cube round : Finset (Nat × Nat)) (w x y : Nat) : Finset (Nat × Nat) :=
  if (x, y) ∈ round then
    insert (slideEast cube (round.erase (x, y)) w y x, y) (round.erase (x, y))
  else round

def tiltEastRound (cube : Finset (Nat × Nat)) (w h : Nat)
    (r : Finset (Nat × Nat)) : Finset (Nat × Nat) :=
  ((List.range (w - 1)).reverse).foldl
    (fun r x => (List.range h).foldl (fun r y => tiltEastCell cube r w x y) r) r

/-- Embeds `Platform::tilt_north` from `day14.rs`. -/
def tilt_north (p : Platform) : Platform :=
  { p with round := tiltNorthRound p.cube p.width p.height p.round }

/-- Embeds `Platform::tilt_cycle` from `day14.rs`: tilt north, then west, then
south, then east. -/
def tilt_cycle (p : Platform) : Platform :=
  let r1 := tiltNorthRound p.cube p.width p.height p.round
  let r2 := tiltWestRound p.cube p.width p.height r1
  let r3 := tiltSouthRound p.cube p.width p.height r2
  let r4 := tiltEastRound p.cube p.width p.height r3
  { p with round := r4 }

/-- Embeds `Platform::load` from `day14.rs`. -/
def load (p : Platform) : Nat := p.round.sum (fun c => p.height - c.2)

/-- The load of a platform whose round set has been replaced. -/
def loadOf (p : Platform) (r : Finset (Nat × Nat)) : Nat :=
  r.sum (fun c => p.height - c.2)

/-- One application of `tilt_cycle` seen as a function of the round-rock set
(width, height and the cube set are fixed by the platform). -/
def stepRound (p : Platform) (r : Finset (Nat × Nat)) : Finset (Nat × Nat) :=
  (tilt_cycle { p with round := r }).round

/-- The round-rock set after `k` tilt cycles. -/
def iterRound (p : Platform) : Nat → Finset (Nat × Nat)
  | 0 => p.round
  | k + 1 => stepRound p (iterRound p k)

/-- Embeds the `history.iter().position` call of `part_b`: index
of the first history entry equal to the given set. -/
def findPos (r : Finset (Nat × Nat)) : List (Finset (Nat × Nat)) → Option Nat
  | [] => none
  | h :: t => if h = r then some 0 else (findPos r t).map (· + 1)

/-- The cycle-detection loop of `part_b`: repeatedly apply `tilt_cycle`; if
the new round set already occurs in the history, stop (returning the matched
index and the history, which does not include the new set); otherwise append
it.  The Rust loop carries no fuel — it terminates because the state space of
round sets is finite — so the embedding makes the fuel explicit and
`part_b` passes a bound larger than the number of distinct round sets. -/
def detectLoop (p : Platform) :
    Nat → Finset (Nat × Nat) → List (Finset (Nat × Nat)) →
      Option (Nat × List (Finset (Nat × Nat)))
  | 0, _, _ => none
  | fuel + 1, r, history =>
    let r2 := stepRound p r
    match findPos r2 history with
    | some i => some (i, history)
    | none => detectLoop p fuel r2 (history ++ [r2])

def detectFuel (p : Platform) : Nat := 2 ^ (p.width * p.height) + 1

/-- Embeds `part_b` from `day14.rs`: detect the cycle, project one billion
iterations into the recorded history, and return the load of the projected
round set.  (Rust indexing panics out of range; the characterization theorem
shows the index is always in range on success, so `getD` is only ever used
in range.) -/
def part_b (p : Platform) : Option Nat :=
  (detectLoop p (detectFuel p) p.round []).map (fun oh =>
    loadOf p (oh.2.getD (oh.1 + (1000000000 - oh.1 - 1) % (oh.2.length - oh.1)) ∅))

/-- Embeds `part_a` from `day14.rs`. -/
def part_a (p : Platform) : Nat := load (tilt_north p)

end Day14

namespace Day14

theorem slideNorth_le (cube round : Finset (Nat × Nat)) (x : Nat) :
    ∀ y, slideNorth cube round x y ≤ y := by
  intro y
  induction y with
  | zero => simp [slideNorth]
  | succ ny ih =>
    simp only [slideNorth]
    split_ifs with h
    · exact le_refl _
    · omega

/-- The landing row of the north slide is either the starting row or a free
cell. -/
theorem slideNorth_spec (cube round : Finset (Nat × Nat)) (x y : Nat) :
    slideNorth cube round x y = y
      ∨ ((x, slideNorth cube round x y) ∉ round
          ∧ (x, slideNorth cube round x y) ∉ cube) := by
  induction y with
  | zero => exact Or.inl rfl
  | succ ny ih =>
    simp only [slideNorth]
    split_ifs with h
    · exact Or.inl rfl
    · push_neg at h
      rcases ih with heq | hfree
      · rw [heq]
        exact Or.inr h
      · exact Or.inr hfree

theorem slideWest_le (cube round : Finset (Nat × Nat)) (y : Nat) :
    ∀ x, slideWest cube round y x ≤ x := by
  intro x
  induction x with
  | zero => simp [slideWest]
  | succ nx ih =>
    simp only [slideWest]
    split_ifs with h
    · exact le_refl _
    · omega

theorem slideWest_spec (cube round : Finset (Nat × Nat)) (y x : Nat) :
    slideWest cube round y x = x
      ∨ ((slideWest cube round y x, y) ∉ round
          ∧ (slideWest cube round y x, y) ∉ cube) := by
  induction x with
  | zero => exact Or.inl rfl
  | succ nx ih =>
    simp only [slideWest]
    split_ifs with h
    · exact Or.inl rfl
    · push_neg at h
      rcases ih with heq | hfree
      · rw [heq]
        exact Or.inr h
      · exact Or.inr hfree

theorem slideSouth_spec_aux (cube round : Finset (Nat × Nat)) (h x : Nat) :
    ∀ (d y : Nat), h - y ≤ d →
      slideSouth cube round h x y = y
        ∨ (slideSouth cube round h x y < h
            ∧ (x, slideSouth cube round h x y) ∉ round
            ∧ (x, slideSouth cube round h x y) ∉ cube) := by
  intro d
  induction d with
  | zero =>
    intro y hy
    unfold slideSouth
    split_ifs with hc
    · exfalso
      omega
    · exact Or.inl rfl
  | succ d ih =>
    intro y hy
    unfold slideSouth
    split_ifs with hc
    · rcases ih (y + 1) (by omega) with heq | hfree
      · rw [heq]
        exact Or.inr ⟨hc.1, hc.2.1, hc.2.2⟩
      · exact Or.inr hfree
    · exact Or.inl rfl

theorem slideSouth_spec (cube round : Finset (Nat × Nat)) (h x y : Nat) :
    slideSouth cube round h x y = y
      ∨ (slideSouth cube round h x y < h
          ∧ (x, slideSouth cube round h x y) ∉ round
          ∧ (x, slideSouth cube round h x y) ∉ cube) :=
  slideSouth_spec_aux cube round h x (h - y) y (le_refl _)

theorem slideEast_spec_aux (cube round : Finset (Nat × Nat)) (w y : Nat) :
    ∀ (d x : Nat), w - x ≤ d →
      slideEast cube round w y x = x
        ∨ (slideEast cube round w y x < w
            ∧ (slideEast cube round w y x, y) ∉ round
            ∧ (slideEast cube round w y x, y) ∉ cube) := by
  intro d
  induction d with
  | zero =>
    intro x hx
    unfold slideEast
    split_ifs with hc
    · exfalso
      omega
    · exact Or.inl rfl
  | succ d ih =>
    intro x hx
    unfold slideEast
    split_ifs with hc
    · rcases ih (x + 1) (by omega) with heq | hfree
      · rw [heq]
        exact Or.inr ⟨hc.1, hc.2.1, hc.2.2⟩
      · exact Or.inr hfree
    · exact Or.inl rfl

theorem slideEast_spec (cube round : Finset (Nat × Nat)) (w y x : Nat) :
    slideEast cube round w y x = x
      ∨ (slideEast cube round w y x < w
          ∧ (slideEast cube round w y x, y) ∉ round
          ∧ (slideEast cube round w y x, y) ∉ cube) :=
  slideEast_spec_aux cube round w y (w - x) x (le_refl _)

/-- Moving one rock preserves the cardinality of the round set: the rock is
re-inserted at an unoccupied cell. -/
theorem move_card {r : Finset (Nat × Nat)} {c t : Nat × Nat} (hc : c ∈ r)
    (ht : t ∉ r.erase c) : (insert t (r.erase c)).card = r.card := by
  rw [Finset.card_insert_of_not_mem ht, Finset.card_erase_of_mem hc]
  have : 0 < r.card := Finset.card_pos.mpr ⟨c, hc⟩
  omega

/-- Generic preservation of cardinality and boundedness through a fold over
grid cells. -/
theorem foldl_card_bounds {α : Type} {w h : Nat} :
    ∀ (cs : List α) (f : Finset (Nat × Nat) → α → Finset (Nat × Nat)),
      (∀ r a, a ∈ cs → (∀ c ∈ r, c.1 < w ∧ c.2 < h) →
        (f r a).card = r.card ∧ ∀ c ∈ f r a, c.1 < w ∧ c.2 < h) →
      ∀ r, (∀ c ∈ r, c.1 < w ∧ c.2 < h) →
        (cs.foldl f r).card = r.card ∧ ∀ c ∈ cs.foldl f r, c.1 < w ∧ c.2 < h := by
  intro cs
  induction cs with
  | nil =>
    intro f hstep r hb
    exact ⟨rfl, hb⟩
  | cons a cs ih =>
    intro f hstep r hb
    have h1 := hstep r a (List.mem_cons_self _ _) hb
    have h2 := ih f (fun r a' ha' hb' => hstep r a' (List.mem_cons_of_mem _ ha') hb')
      (f r a) h1.2
    simp only [List.foldl_cons]
    exact ⟨h2.1.trans h1.1, h2.2⟩

end Day14

namespace Day14

theorem tiltNorthCell_step {w h : Nat} (cube : Finset (Nat × Nat)) (x y : Nat)
    (hx : x < w) (hy : y < h) :
    ∀ r, (∀ c ∈ r, c.1 < w ∧ c.2 < h) →
      (tiltNorthCell cube r x y).card = r.card
        ∧ ∀ c ∈ tiltNorthCell cube r x y, c.1 < w ∧ c.2 < h := by
  intro r hb
  unfold tiltNorthCell
  split_ifs with hm
  · have ht : (x, slideNorth cube (r.erase (x, y)) x y) ∉ r.erase (x, y) := by
      rcases slideNorth_spec cube (r.erase (x, y)) x y with heq | hfree
      · rw [heq]
        exact Finset.not_mem_erase _ _
      · exact hfree.1
    refine ⟨move_card hm ht, ?_⟩
    intro c hc
    rcases Finset.mem_insert.mp hc with rfl | hc'
    · exact ⟨hx, lt_of_le_of_lt (slideNorth_le _ _ _ _) hy⟩
    · exact hb c (Finset.mem_of_mem_erase hc')
  · exact ⟨rfl, hb⟩

theorem tiltWestCell_step {w h : Nat} (cube : Finset (Nat × Nat)) (x y : Nat)
    (hx : x < w) (hy : y < h) :
    ∀ r, (∀ c ∈ r, c.1 < w ∧ c.2 < h) →
      (tiltWestCell cube r x y).card = r.card
        ∧ ∀ c ∈ tiltWestCell cube r x y, c.1 < w ∧ c.2 < h := by
  intro r hb
  unfold tiltWestCell
  split_ifs with hm
  · have ht : (slideWest cube (r.erase (x, y)) y x, y) ∉ r.erase (x, y) := by
      rcases slideWest_spec cube (r.erase (x, y)) y x with heq | hfree
      · rw [heq]
        exact Finset.not_mem_erase _ _
      · exact hfree.1
    refine ⟨move_card hm ht, ?_⟩
    intro c hc
    rcases Finset.mem_insert.mp hc with rfl | hc'
    · exact ⟨lt_of_le_of_lt (slideWest_le _ _ _ _) hx, hy⟩
    · exact hb c (Finset.mem_of_mem_erase hc')
  · exact ⟨rfl, hb⟩

theorem tiltSouthCell_step {w h : Nat} (cube : Finset (Nat × Nat)) (x y : Nat)
    (hx : x < w) (hy : y < h) :
    ∀ r, (∀ c ∈ r, c.1 < w ∧ c.2 < h) →
      (tiltSouthCell cube r h x y).card = r.card
        ∧ ∀ c ∈ tiltSouthCell cube r h x y, c.1 < w ∧ c.2 < h := by
  intro r hb
  unfold tiltSouthCell
  split_ifs with hm
  · have ht : (x, slideSouth cube (r.erase (x, y)) h x y) ∉ r.erase (x, y) := by
      rcases slideSouth_spec cube (r.erase (x, y)) h x y with heq | hfree
      · rw [heq]
        exact Finset.not_mem_erase _ _
      · exact hfree.2.1
    refine ⟨move_card hm ht, ?_⟩
    intro c hc
    rcases Finset.mem_insert.mp hc with rfl | hc'
    · refine ⟨hx, ?_⟩
      rcases slideSouth_spec cube (r.erase (x, y)) h x y with heq | hfree
      · rw [heq]
        exact hy
      · exact hfree.1
    · exact hb c (Finset.mem_of_mem_erase hc')
  · exact ⟨rfl, hb⟩

theorem tiltEastCell_step {w h : Nat} (cube : Finset (Nat × Nat)) (x y : Nat)
    (hx : x < w) (hy : y < h) :
    ∀ r, (∀ c ∈ r, c.1 < w ∧ c.2 < h) →
      (tiltEastCell cube r w x y).card = r.card
        ∧ ∀ c ∈ tiltEastCell cube r w x y, c.1 < w ∧ c.2 < h := by
  intro r hb
  unfold tiltEastCell
  split_ifs with hm
  · have ht : (slideEast cube (r.erase (x, y)) w y x, y) ∉ r.erase (x, y) := by
      rcases slideEast_spec cube (r.erase (x, y)) w y x with heq | hfree
      · rw [heq]
        exact Finset.not_mem_erase _ _
      · exact hfree.2.1
    refine ⟨move_card hm ht, ?_⟩
    intro c hc
    rcases Finset.mem_insert.mp hc with rfl | hc'
    · refine ⟨?_, hy⟩
      rcases slideEast_spec cube (r.erase (x, y)) w y x with heq | hfree
      · rw [heq]
        exact hx
      · exact hfree.1
    · exact hb c (Finset.mem_of_mem_erase hc')
  · exact ⟨rfl, hb⟩

theorem tiltNorthRound_spec (cube : Finset (Nat × Nat)) (w h : Nat)
    (r : Finset (Nat × Nat)) (hb : ∀ c ∈ r, c.1 < w ∧ c.2 < h) :
    (tiltNorthRound cube w h r).card = r.card
      ∧ ∀ c ∈ tiltNorthRound cube w h r, c.1 < w ∧ c.2 < h := by
  unfold tiltNorthRound
  refine foldl_card_bounds _ _ ?_ r hb
  intro r' y hy hb'
  have hy' : y < h := by
    have := List.mem_range'_1.mp hy
    omega
  refine foldl_card_bounds _ _ ?_ r' hb'
  intro r'' x hx hb''
  exact tiltNorthCell_step cube x y (List.mem_range.mp hx) hy' r'' hb''

theorem tiltWestRound_spec (cube : Finset (Nat × Nat)) (w h : Nat)
    (r : Finset (Nat × Nat)) (hb : ∀ c ∈ r, c.1 < w ∧ c.2 < h) :
    (tiltWestRound cube w h r).card = r.card
      ∧ ∀ c ∈ tiltWestRound cube w h r, c.1 < w ∧ c.2 < h := by
  unfold tiltWestRound
  refine foldl_card_bounds _ _ ?_ r hb
  intro r' x hx hb'
  have hx' : x < w := by
    have := List.mem_range'_1.mp hx
    omega
  refine foldl_card_bounds _ _ ?_ r' hb'
  intro r'' y hy hb''
  exact tiltWestCell_step cube x y hx' (List.mem_range.mp hy) r'' hb''

theorem tiltSouthRound_spec (cube : Finset (Nat × Nat)) (w h : Nat)
    (r : Finset (Nat × Nat)) (hb : ∀ c ∈ r, c.1 < w ∧ c.2 < h) :
    (tiltSouthRound cube w h r).card = r.card
      ∧ ∀ c ∈ tiltSouthRound cube w h r, c.1 < w ∧ c.2 < h := by
  unfold tiltSouthRound
  refine foldl_card_bounds _ _ ?_ r hb
  intro r' y hy hb'
  have hy' : y < h := by
    rw [List.mem_reverse] at hy
    have := List.mem_range.mp hy
    omega
  refine foldl_card_bounds _ _ ?_ r' hb'
  intro r'' x hx hb''
  exact tiltSouthCell_step cube x y (List.mem_range.mp hx) hy' r'' hb''

theorem tiltEastRound_spec (cube : Finset (Nat × Nat)) (w h : Nat)
    (r : Finset (Nat × Nat)) (hb : ∀ c ∈ r, c.1 < w ∧ c.2 < h) :
    (tiltEastRound cube w h r).card = r.card
      ∧ ∀ c ∈ tiltEastRound cube w h r, c.1 < w ∧ c.2 < h := by
  unfold tiltEastRound
  refine foldl_card_bounds _ _ ?_ r hb
  intro r' x hx hb'
  have hx' : x < w := by
    rw [List.mem_reverse] at hx
    have := List.mem_range.mp hx
    omega
  refine foldl_card_bounds _ _ ?_ r' hb'
  intro r'' y hy hb''
  exact tiltEastCell_step cube x y hx' (List.mem_range.mp hy) r'' hb''

end Day14

/-- C10: `tilt_north` and `tilt_cycle` leave the platform's width, height
and cube set unchanged, preserve the number of round rocks (each rock is
taken out and re-inserted at an unoccupied cell), and keep every round rock
inside the bounds, provided the round rocks start inside the bounds. -/
theorem tilts_preserve_platform_shape (p : Day14.Platform)
    (hb : ∀ c ∈ p.round, c.1 < p.width ∧ c.2 < p.height) :
    ((Day14.tilt_north p).width = p.width
      ∧ (Day14.tilt_north p).height = p.height
      ∧ (Day14.tilt_north p).cube = p.cube
      ∧ (Day14.tilt_north p).round.card = p.round.card
      ∧ ∀ c ∈ (Day14.tilt_north p).round, c.1 < p.width ∧ c.2 < p.height)
    ∧ ((Day14.tilt_cycle p).width = p.width
      ∧ (Day14.tilt_cycle p).height = p.height
      ∧ (Day14.tilt_cycle p).cube = p.cube
      ∧ (Day14.tilt_cycle p).round.card = p.round.card
      ∧ ∀ c ∈ (Day14.tilt_cycle p).round, c.1 < p.width ∧ c.2 < p.height) := by
  have h1 := Day14.tiltNorthRound_spec p.cube p.width p.height p.round hb
  have h2 := Day14.tiltWestRound_spec p.cube p.width p.height _ h1.2
  have h3 := Day14.tiltSouthRound_spec p.cube p.width p.height _ h2.2
  have h4 := Day14.tiltEastRound_spec p.cube p.width p.height _ h3.2
  refine ⟨⟨rfl, rfl, rfl, h1.1, h1.2⟩, rfl, rfl, rfl, ?_, h4.2⟩
  rw [Day14.tilt_cycle]
  simp only
  rw [h4.1, h3.1, h2.1, h1.1]

/-- Witness for C10 on the 2 by 2 platform with a single round rock at the
origin: `tilt_cycle` keeps exactly one round rock. -/
theorem tilts_preserve_platform_shape_witness :
    (Day14.tilt_cycle ⟨2, 2, {(0, 0)}, ∅⟩).round.card
      = (Day14.Platform.mk 2 2 {(0, 0)} ∅).round.card :=
  (tilts_preserve_platform_shape ⟨2, 2, {(0, 0)}, ∅⟩ (by decide)).2.2.2.2.1

namespace Day14

theorem findPos_some (r : Finset (Nat × Nat)) :
    ∀ (l : List (Finset (Nat × Nat))) (i : Nat), findPos r l = some i →
      i < l.length ∧ l.getD i ∅ = r ∧ ∀ j < i, l.getD j ∅ ≠ r := by
  intro l
  induction l with
  | nil =>
    intro i h
    simp [findPos] at h
  | cons a t ih =>
    intro i h
    simp only [findPos] at h
    split_ifs at h with ha
    · have h0 : i = 0 := (Option.some.inj h).symm
      subst h0
      refine ⟨by simp, by simpa using ha, ?_⟩
      intro j hj
      omega
    · obtain ⟨i', hfind, hi⟩ := Option.map_eq_some'.mp h
      subst hi
      obtain ⟨hlt, hget, hpre⟩ := ih i' hfind
      refine ⟨by simpa using hlt, by simpa using hget, ?_⟩
      intro j hj
      cases j with
      | zero => simpa using ha
      | succ j' =>
        rw [List.getD_cons_succ]
        exact hpre j' (by omega)

theorem findPos_none (r : Finset (Nat × Nat)) :
    ∀ (l : List (Finset (Nat × Nat))), findPos r l = none →
      ∀ j < l.length, l.getD j ∅ ≠ r := by
  intro l
  induction l with
  | nil =>
    intro h j hj
    simp at hj
  | cons a t ih =>
    intro h j hj
    simp only [findPos] at h
    split_ifs at h with ha
    have hfind : findPos r t = none := Option.map_eq_none'.mp h
    cases j with
    | zero => simpa using ha
    | succ j' =>
      rw [List.getD_cons_succ]
      exact ih hfind j' (by simpa using hj)

/-- What the cycle-detection loop of `part_b` guarantees on success: the
history holds exactly the round sets after 1, 2, ..., len tilt cycles (the
initial, pre-step set is never recorded or compared), the new set after
len + 1 cycles equals the history entry at the matched offset (which is the
set after offset + 1 cycles), and this is the first pair of equal states
among post-step states: any repeat among indices 1 ≤ b < a ≤ len + 1 is
exactly (len + 1, offset + 1). -/
structure DetectSpec (p : Platform) (off : Nat)
    (hist : List (Finset (Nat × Nat))) : Prop where
  offLt : off < hist.length
  histVal : ∀ j < hist.length, hist.getD j ∅ = iterRound p (j + 1)
  repeatEq : iterRound p (hist.length + 1) = iterRound p (off + 1)
  firstRepeat : ∀ a b, 1 ≤ b → b < a → a ≤ hist.length + 1 →
      iterRound p a = iterRound p b → a = hist.length + 1 ∧ b = off + 1

theorem detectLoop_spec (p : Platform) :
    ∀ (fuel k : Nat) (history : List (Finset (Nat × Nat))),
      history.length = k →
      (∀ j < history.length, history.getD j ∅ = iterRound p (j + 1)) →
      (∀ a b, 1 ≤ b → b < a → a ≤ k → iterRound p a ≠ iterRound p b) →
      ∀ off hist, detectLoop p fuel (iterRound p k) history = some (off, hist) →
        DetectSpec p off hist := by
  intro fuel
  induction fuel with
  | zero =>
    intro k history hlen hval hM1 off hist h
    simp [detectLoop] at h
  | succ fuel ih =>
    intro k history hlen hval hM1 off hist h
    simp only [detectLoop] at h
    have hr2 : stepRound p (iterRound p k) = iterRound p (k + 1) := rfl
    rw [hr2] at h
    cases hfp : findPos (iterRound p (k + 1)) history with
    | some i =>
      rw [hfp] at h
      have hpair : (i, history) = (off, hist) := Option.some.inj h
      injection hpair with h1 h2
      subst off
      subst hist
      obtain ⟨hlt, hget, hpre⟩ := findPos_some (iterRound p (k + 1)) history i hfp
      refine ⟨hlt, hval, ?_, ?_⟩
      · rw [hlen, ← hval i hlt]
        exact hget.symm
      · intro a b hb hba hak hab
        rw [hlen] at hak
        rcases Nat.lt_or_ge a (k + 1) with halt | hage
        · exact absurd hab (hM1 a b hb hba (by omega))
        · have ha : a = k + 1 := by omega
          subst ha
          have hb1 : b - 1 < history.length := by omega
          have hgb : history.getD (b - 1) ∅ = iterRound p b := by
            rw [hval (b - 1) hb1]
            congr 1
            omega
          rcases Nat.lt_trichotomy (b - 1) i with hlt2 | heq2 | hgt2
          · exact absurd (by rw [hgb]; exact hab.symm) (hpre (b - 1) hlt2)
          · exact ⟨by omega, by omega⟩
          · exfalso
            have hi1 : iterRound p (i + 1) = iterRound p (k + 1) := by
              rw [← hval i hlt, hget]
            exact hM1 b (i + 1) (by omega) (by omega) (by omega)
              (by rw [← hab]; exact hi1.symm)
    | none =>
      rw [hfp] at h
      have hnone := findPos_none (iterRound p (k + 1)) history hfp
      refine ih (k + 1) (history ++ [iterRound p (k + 1)]) ?_ ?_ ?_ off hist h
      · simp [hlen]
      · intro j hj
        simp only [List.length_append, List.length_singleton] at hj
        rcases Nat.lt_or_ge j history.length with hjl | hjg
        · rw [List.getD_append _ _ _ _ hjl]
          exact hval j hjl
        · have hj2 : j = history.length := by omega
          subst hj2
          have hx : (history ++ [iterRound p (k + 1)]).getD history.length ∅
              = iterRound p (k + 1) := by
            simp [List.getD_append_right, le_refl]
          rw [hx, hlen]
      · intro a b hb hba hak habs
        rcases Nat.lt_or_ge a (k + 1) with halt | hage
        · exact hM1 a b hb hba (by omega) habs
        · have ha : a = k + 1 := by omega
          subst ha
          have hb1 : b - 1 < history.length := by omega
          apply hnone (b - 1) hb1
          rw [hval (b - 1) hb1]
          have hbb : b - 1 + 1 = b := by omega
          rw [hbb]
          exact habs.symm

end Day14

namespace Day14

theorem iter_congr_step (p : Platform) {a b : Nat}
    (h : iterRound p a = iterRound p b) :
    iterRound p (a + 1) = iterRound p (b + 1) :=
  congrArg (stepRound p) h

theorem iter_period (p : Platform) (off Q : Nat)
    (hQ : iterRound p (off + 1 + Q) = iterRound p (off + 1)) :
    ∀ j, iterRound p (off + 1 + j + Q) = iterRound p (off + 1 + j) := by
  intro j
  induction j with
  | zero => simpa using hQ
  | succ j ih =>
    have hstep := iter_congr_step p ih
    have e1 : off + 1 + (j + 1) + Q = off + 1 + j + Q + 1 := by omega
    have e2 : off + 1 + (j + 1) = off + 1 + j + 1 := by omega
    rw [e1, e2]
    exact hstep

theorem iter_period_ge (p : Platform) (off Q : Nat) (hQpos : 0 < Q)
    (hQ : iterRound p (off + 1 + Q) = iterRound p (off + 1)) :
    ∀ (k t : Nat), off + 1 ≤ k → iterRound p (k + t * Q) = iterRound p k := by
  intro k t hk
  induction t with
  | zero => simp
  | succ t ih =>
    have e1 : k + (t + 1) * Q = k + t * Q + Q := by ring
    have e2 : k + t * Q = off + 1 + (k + t * Q - (off + 1)) := by omega
    rw [e1, e2, iter_period p off Q hQ (k + t * Q - (off + 1)), ← e2]
    exact ih

/-- Cycle projection: once the detector has succeeded, indexing the history
at `offset + (t - offset - 1) mod cycle_length` reproduces the direct
simulation of `t` tilt cycles, for every `t` past the detected offset. -/
theorem detect_projection (p : Platform) (off : Nat)
    (hist : List (Finset (Nat × Nat))) (hspec : DetectSpec p off hist)
    (t : Nat) (ht : off + 1 ≤ t) :
    hist.getD (off + (t - off - 1) % (hist.length - off)) ∅ = iterRound p t := by
  have hofflt := hspec.offLt
  set Q := hist.length - off with hQdef
  have hQpos : 0 < Q := by omega
  have hidx : off + (t - off - 1) % Q = off + (t - (off + 1)) % Q := by
    have : t - off - 1 = t - (off + 1) := by omega
    rw [this]
  have hmodlt : (t - (off + 1)) % Q < Q := Nat.mod_lt _ hQpos
  have hlt : off + (t - (off + 1)) % Q < hist.length := by omega
  rw [hidx, hspec.histVal _ hlt]
  have hper : iterRound p (off + 1 + Q) = iterRound p (off + 1) := by
    have hre := hspec.repeatEq
    have e : hist.length + 1 = off + 1 + Q := by omega
    rw [e] at hre
    exact hre
  have hmul := iter_period_ge p off Q hQpos hper
    (off + 1 + (t - (off + 1)) % Q) ((t - (off + 1)) / Q) (by omega)
  have e2 : off + 1 + (t - (off + 1)) % Q + (t - (off + 1)) / Q * Q = t := by
    have hdm := Nat.div_add_mod (t - (off + 1)) Q
    rw [Nat.mul_comm] at hdm
    omega
  rw [e2] at hmul
  have e3 : off + (t - (off + 1)) % Q + 1 = off + 1 + (t - (off + 1)) % Q := by omega
  rw [e3, ← hmul]

/-- The detected offset is at most the true pre-period: if the orbit is
`P`-periodic from index `L` on, projection is valid from `max L 1` on. -/
theorem detect_offset_le (p : Platform) (off : Nat)
    (hist : List (Finset (Nat × Nat))) (hspec : DetectSpec p off hist)
    (L P : Nat) (hP : 1 ≤ P)
    (hL : ∀ k, L ≤ k → iterRound p (k + P) = iterRound p k) :
    off + 1 ≤ max L 1 := by
  by_contra hco
  push_neg at hco
  have hofflt := hspec.offLt
  have hs1 : 1 ≤ off := by omega
  have hsL : L ≤ off := by
    have := Nat.le_max_left L 1
    omega
  set s := max L 1 with hsdef
  set Q := hist.length - off with hQdef
  have hQpos : 0 < Q := by omega
  have hsp : iterRound p (s + P) = iterRound p s := hL s (Nat.le_max_left _ _)
  have hs1' : 1 ≤ s := Nat.le_max_right L 1
  have hlen1 : hist.length + 1 < s + P := by
    by_contra hle
    push_neg at hle
    have := hspec.firstRepeat (s + P) s hs1' (by omega) hle hsp
    omega
  have hper : iterRound p (off + 1 + Q) = iterRound p (off + 1) := by
    have hre := hspec.repeatEq
    have e : hist.length + 1 = off + 1 + Q := by omega
    rw [e] at hre
    exact hre
  have h1 : iterRound p (off + 1 + P) = iterRound p (off + 1) := hL (off + 1) (by omega)
  have h2 : iterRound p (off + 1 + P % Q) = iterRound p (off + 1) := by
    have hmul := iter_period_ge p off Q hQpos hper (off + 1 + P % Q) (P / Q) (by omega)
    have e : off + 1 + P % Q + P / Q * Q = off + 1 + P := by
      have hdm := Nat.div_add_mod P Q
      rw [Nat.mul_comm] at hdm
      omega
    rw [e] at hmul
    exact hmul.symm.trans h1
  rcases Nat.eq_zero_or_pos (P % Q) with hr0 | hrpos
  · have h3 : iterRound p (off + P) = iterRound p off := hL off hsL
    have hQleP : Q ≤ P := by
      by_contra hqp
      push_neg at hqp
      have hmp := Nat.mod_eq_of_lt hqp
      omega
    have hm : 1 ≤ P / Q := (Nat.one_le_div_iff hQpos).mpr hQleP
    have h4 := iter_period_ge p off Q hQpos hper (off + Q) (P / Q - 1) (by omega)
    have e4 : off + Q + (P / Q - 1) * Q = off + P := by
      have hmmul : P / Q * Q = P := by
        have hdm := Nat.div_add_mod P Q
        rw [Nat.mul_comm] at hdm
        omega
      have hsplit : (P / Q - 1) * Q + Q = P / Q * Q := by
        have h5 : P / Q - 1 + 1 = P / Q := by omega
        calc (P / Q - 1) * Q + Q = (P / Q - 1 + 1) * Q := by ring
        _ = P / Q * Q := by rw [h5]
      omega
    rw [e4, h3] at h4
    have := hspec.firstRepeat (off + Q) off hs1 (by omega) (by omega) h4.symm
    omega
  · have hPQlt : P % Q < Q := Nat.mod_lt _ hQpos
    have := hspec.firstRepeat (off + 1 + P % Q) (off + 1) (by omega) (by omega)
      (by omega) h2
    omega

/-- The characterization specialized to the loop's actual starting state:
empty history, current set `p.round`. -/
theorem detectLoop_run_spec (p : Platform) (fuel off : Nat)
    (hist : List (Finset (Nat × Nat)))
    (hdet : detectLoop p fuel p.round [] = some (off, hist)) :
    DetectSpec p off hist := by
  refine detectLoop_spec p fuel 0 [] rfl ?_ ?_ off hist ?_
  · intro j hj
    simp at hj
  · intro a b hb hba hab
    omega
  · exact hdet

end Day14

/-- C3 (amended): the cycle detector of `part_b` compares each new round set
(before appending it) against the ordered history of post-step states only —
the initial pre-step set is never recorded or compared; the history entry at
index `j` is the set after `j + 1` tilt cycles; on success the new set after
`len + 1` cycles equals `history[offset]`, the set after `offset + 1`
cycles, this is the first repeated pair among post-step states, and the
cycle length the code uses is `history.len() - offset` (not
`i - offset + 1` with the new state counted at history index `i`), which is
a true period of the orbit's tail. -/
theorem cycle_detector_compares_post_step_history (p : Day14.Platform)
    (fuel off : Nat) (hist : List (Finset (Nat × Nat)))
    (hdet : Day14.detectLoop p fuel p.round [] = some (off, hist)) :
    off < hist.length
      ∧ (∀ j < hist.length, hist.getD j ∅ = Day14.iterRound p (j + 1))
      ∧ Day14.iterRound p (hist.length + 1) = Day14.iterRound p (off + 1)
      ∧ (∀ a b, 1 ≤ b → b < a → a ≤ hist.length + 1 →
          Day14.iterRound p a = Day14.iterRound p b →
          a = hist.length + 1 ∧ b = off + 1)
      ∧ Day14.iterRound p (off + 1 + (hist.length - off))
          = Day14.iterRound p (off + 1) := by
  have hspec := Day14.detectLoop_run_spec p fuel off hist hdet
  refine ⟨hspec.offLt, hspec.histVal, hspec.repeatEq, hspec.firstRepeat, ?_⟩
  have hre := hspec.repeatEq
  have e : off + 1 + (hist.length - off) = hist.length + 1 := by
    have := hspec.offLt
    omega
  rw [e]
  exact hre

/-- Witness for C3 (amended) on the 1 by 1 platform with one round rock: the
detector stops with offset 0 and a one-entry history. -/
theorem cycle_detector_compares_post_step_history_witness :
    (0 : Nat) < [({(0, 0)} : Finset (Nat × Nat))].length :=
  (cycle_detector_compares_post_step_history ⟨1, 1, {(0, 0)}, ∅⟩ 3 0
    [{(0, 0)}] (by decide)).1

/-- C3 counterexample: on the 1 by 1 platform with one round rock the orbit
is a fixed point.  The code's loop stops with offset 0 and history
`[{(0,0)}]` and uses cycle length `history.len() - offset = 1`.  Under the
claim's convention — the history includes the initial pre-step state, the new
state is appended at index `i = 1` and equals `history[0]`, so `offset = 0` —
the claimed cycle length `i - offset + 1` is 2, not the 1 the code uses. -/
theorem cycle_detector_claimed_length_off_by_one :
    Day14.detectLoop ⟨1, 1, {(0, 0)}, ∅⟩
        (Day14.detectFuel ⟨1, 1, {(0, 0)}, ∅⟩)
        (Day14.Platform.mk 1 1 {(0, 0)} ∅).round []
        = some (0, [{(0, 0)}])
      ∧ [({(0, 0)} : Finset (Nat × Nat))].length - 0 = 1
      ∧ Day14.iterRound ⟨1, 1, {(0, 0)}, ∅⟩ 1
          = Day14.iterRound ⟨1, 1, {(0, 0)}, ∅⟩ 0
      ∧ (1 : Nat) - 0 + 1 = 2
      ∧ (1 : Nat) ≠ 2 :=
  ⟨by decide, by decide, by decide, by decide, by decide⟩

/-- C1: once the detector has succeeded, for any pre-period bound `L` (with
some period `P` at least 1) and any target `t` with `L ≤ t` and `1 ≤ t`, the
state obtained by indexing the history at
`offset + (t - offset - 1) mod (history.len() - offset)` equals the direct
simulation of `t` tilt cycles; in particular (whenever `L` allows the
billion-step target) `part_b` returns the load after one billion direct tilt
cycles. -/
theorem cycle_projection_agrees_with_direct_simulation
    (p : Day14.Platform) (off : Nat) (hist : List (Finset (Nat × Nat)))
    (hdet : Day14.detectLoop p (Day14.detectFuel p) p.round []
        = some (off, hist))
    (L P : Nat) (hP : 1 ≤ P)
    (hL : ∀ k, L ≤ k → Day14.iterRound p (k + P) = Day14.iterRound p k)
    (t : Nat) (htL : L ≤ t) (ht1 : 1 ≤ t) :
    hist.getD (off + (t - off - 1) % (hist.length - off)) ∅
        = Day14.iterRound p t
      ∧ (L ≤ 1000000000 →
          Day14.part_b p
            = some (Day14.loadOf p (Day14.iterRound p 1000000000))) := by
  have hspec := Day14.detectLoop_run_spec p (Day14.detectFuel p) off hist hdet
  have hbridge := Day14.detect_offset_le p off hist hspec L P hP hL
  constructor
  · exact Day14.detect_projection p off hist hspec t (by omega)
  · intro hbig
    unfold Day14.part_b
    rw [hdet]
    simp only [Option.map_some']
    congr 1
    rw [Day14.detect_projection p off hist hspec 1000000000 (by omega)]

/-- Witness for C1 on the 1 by 1 fixed-point platform (pre-period 0, period
1) at target `t = 7`: the projected history entry is the direct simulation of
7 cycles. -/
theorem cycle_projection_agrees_with_direct_simulation_witness :
    [({(0, 0)} : Finset (Nat × Nat))].getD (0 + (7 - 0 - 1) % (1 - 0)) ∅
        = Day14.iterRound ⟨1, 1, {(0, 0)}, ∅⟩ 7 :=
  (cycle_projection_agrees_with_direct_simulation ⟨1, 1, {(0, 0)}, ∅⟩ 0
    [{(0, 0)}] (by decide) 0 1 (by decide) (fun k hk => rfl) 7 (by decide)
    (by decide)).1

namespace Day17

/-- Movement direction, as in `day17.rs` (declaration order gives the derived
`Ord` used by the heap: Up < Down < Left < Right). -/
inductive Dir where
  | up
  | down
  | left
  | right
deriving DecidableEq, Repr

def Dir.idx : Dir → Nat
  | Dir.up => 0
  | Dir.down => 1
  | Dir.left => 2
  | Dir.right => 3

/-- Embeds `Dir::turn_left` from `day17.rs`. -/
def Dir.turn_left : Dir → Dir
  | Dir.up => Dir.left
  | Dir.down => Dir.right
  | Dir.left => Dir.down
  | Dir.right => Dir.up

/-- Embeds `Dir::turn_right` from `day17.rs`. -/
def Dir.turn_right : Dir → Dir
  | Dir.up => Dir.right
  | Dir.down => Dir.left
  | Dir.left => Dir.up
  | Dir.right => Dir.down

/-- The heap entry `Moves` from `day17.rs`. -/
structure Moves where
  estimated_cost : Nat
  current_cost : Nat
  x : Nat
  y : Nat
  dir : Dir
  num_straight_moves : Nat
deriving DecidableEq, Repr

/-- The derived lexicographic strict order on `Moves` (field declaration
order), which the `BinaryHeap<Reverse<Moves>>` pops minima of. -/
def Moves.lexLt (a b : Moves) : Bool :=
  if a.estimated_cost ≠ b.estimated_cost then decide (a.estimated_cost < b.estimated_cost)
  else if a.current_cost ≠ b.current_cost then decide (a.current_cost < b.current_cost)
  else if a.x ≠ b.x then decide (a.x < b.x)
  else if a.y ≠ b.y then decide (a.y < b.y)
  else if a.dir.idx ≠ b.dir.idx then decide (a.dir.idx < b.dir.idx)
  else decide (a.num_straight_moves < b.num_straight_moves)

/-- Pop a minimal element of the bag of pending moves (ties prefer the
earlier entry; distinct heap entries are never `Ord`-equal in this algorithm
unless identical, so any tie-break reproduces `BinaryHeap::pop`). -/
def popMin : List Moves → Option (Moves × List Moves)
  | [] => none
  | m :: rest =>
    match popMin rest with
    | none => some (m, [])
    | some (m', rest') =>
      if Moves.lexLt m' m then some (m', m :: rest') else some (m, rest)

/-- 2 to the 64th: `usize` arithmetic wraps modulo this in release builds. -/
def U64 : Nat := 18446744073709551616

/-- Computes `self.width - 1` and `self.height - 1` in `usize` arithmetic (wrapping
subtraction; for any parsed map the width and height are at least 1 and this
is plain subtraction). -/
def targetOf (m : Map) : Nat × Nat :=
  ((m.width + (U64 - 1)) % U64, (m.height + (U64 - 1)) % U64)

/-- Embeds `manhattan_distance` from `day17.rs` (`abs_diff` plus `abs_diff`; the sum
is reduced modulo 2 to the 64 because for a width-0 map the two wrapped
target coordinates make the addition overflow `usize`). -/
def manhattan_distance (a b : Nat × Nat) : Nat :=
  (Nat.dist a.1 b.1 + Nat.dist a.2 b.2) % U64

/-- A visited-set key: `(x, y, dir, num_straight_moves)`. -/
abbrev SearchKey := Nat × Nat × Dir × Nat

/-- The coordinate step of `cheapest_path`: move one cell in `dir`, failing
on `checked_sub` at the left/top edge (the right/bottom edge is handled by
the block lookup). -/
def stepCoord (x y : Nat) : Dir → Option (Nat × Nat)
  | Dir.up => if y = 0 then none else some (x, y - 1)
  | Dir.down => some (x, y + 1)
  | Dir.left => if x = 0 then none else some (x - 1, y)
  | Dir.right => some (x + 1, y)

/-- The run-length bookkeeping of `cheapest_path`: one more straight move in
the same direction, otherwise a fresh run of length 1. -/
def runLength (d dir : Dir) (n : Nat) : Nat := if dir = d then n + 1 else 1

/-- The `for dir in [dir, turn_left, turn_right]` body of `cheapest_path`:
compute the run length, apply the two straight-move guards, step the
coordinate (failing at the grid edge), look up the entry cost, and push the
move unless its exact `SearchKey` was already inserted into the visited set
(insertion happens here, at push time). -/
def expandMove (m : Map) (min_straight_moves max_straight_moves : Nat)
    (mov : Moves) (acc : List Moves × List SearchKey) (dir : Dir) :
    List Moves × List SearchKey :=
  if max_straight_moves < runLength mov.dir dir mov.num_straight_moves then acc
  else if dir ≠ mov.dir ∧ mov.num_straight_moves < min_straight_moves then acc
  else
    match stepCoord mov.x mov.y dir with
    | none => acc
    | some (x, y) =>
      match m.blocks.lookup (x, y) with
      | none => acc
      | some cost =>
        if (x, y, dir, runLength mov.dir dir mov.num_straight_moves) ∈ acc.2 then acc
        else
          (acc.1 ++ [⟨mov.current_cost + cost + manhattan_distance (x, y) (targetOf m),
                      mov.current_cost + cost, x, y, dir,
                      runLength mov.dir dir mov.num_straight_moves⟩],
           (x, y, dir, runLength mov.dir dir mov.num_straight_moves) :: acc.2)

/-- The `while let Some(Reverse(mov)) = to_visit.pop()` loop of
`cheapest_path`, with explicit fuel; besides the result (`none` = fuel ran
out; `some none` = frontier emptied; `some (some c)` = target dequeued with
cost `c`) it returns the list of dequeued moves, in order. -/
def cheapestPathLoop (m : Map) (min_straight_moves max_straight_moves : Nat) :
    Nat → List Moves → List SearchKey → Option (Option Nat) × List Moves
  | 0, _, _ => (none, [])
  | fuel + 1, heap, visited =>
    match popMin heap with
    | none => (some none, [])
    | some (mov, rest) =>
      if (mov.x, mov.y) = targetOf m then (some (some mov.current_cost), [mov])
      else
        let acc := [mov.dir, mov.dir.turn_left, mov.dir.turn_right].foldl
          (expandMove m min_straight_moves max_straight_moves mov) (rest, visited)
        let res := cheapestPathLoop m min_straight_moves max_straight_moves
          fuel acc.1 acc.2
        (res.1, mov :: res.2)

/-- Fuel bound: each iteration pops one entry; an entry is pushed at most
once per visited key, and there are at most
`4 * (max_straight + 1) * (cells + 1)` keys. -/
def cpFuel (m : Map) (max_straight_moves : Nat) : Nat :=
  4 * (max_straight_moves + 2) * (m.blocks.length + 2) + 4

/-- The two seed moves (Right then Down) and their pre-inserted visited keys,
then the search loop. -/
def cheapestPathRun (m : Map) (min_straight_moves max_straight_moves : Nat) :
    Option (Option Nat) × List Moves :=
  let source := (0, 0)
  let est := manhattan_distance source (targetOf m)
  cheapestPathLoop m min_straight_moves max_straight_moves
    (cpFuel m max_straight_moves)
    [⟨est, 0, 0, 0, Dir.right, 0⟩, ⟨est, 0, 0, 0, Dir.down, 0⟩]
    [(0, 0, Dir.right, 0), (0, 0, Dir.down, 0)]

/-- Embeds `Map::cheapest_path` from `day17.rs`. -/
def cheapest_path (m : Map) (min_straight_moves max_straight_moves : Nat) :
    Option Nat :=
  (cheapestPathRun m min_straight_moves max_straight_moves).1.getD none

end Day17


namespace Day17

/-- Admissible paths of `cheapest_path`, as a reachability relation on
search states: start at the origin facing Right or Down with run length 0
and accumulated cost 0, and take successor steps exactly as the search loop
generates them (same run-length bookkeeping, straight-move guards,
coordinate step and block-cost lookup). -/
inductive Reachable (m : Map) (min_straight_moves max_straight_moves : Nat) :
    SearchKey → Nat → Prop where
  | seedRight : Reachable m min_straight_moves max_straight_moves
      (0, 0, Dir.right, 0) 0
  | seedDown : Reachable m min_straight_moves max_straight_moves
      (0, 0, Dir.down, 0) 0
  | step {x y : Nat} {d : Dir} {n g : Nat} {dir : Dir} {x2 y2 cost : Nat} :
      Reachable m min_straight_moves max_straight_moves (x, y, d, n) g →
      (dir = d ∨ dir = d.turn_left ∨ dir = d.turn_right) →
      runLength d dir n ≤ max_straight_moves →
      (dir ≠ d → min_straight_moves ≤ n) →
      stepCoord x y dir = some (x2, y2) →
      m.blocks.lookup (x2, y2) = some cost →
      Reachable m min_straight_moves max_straight_moves
        (x2, y2, dir, runLength d dir n) (g + cost)

theorem popMin_mem :
    ∀ (l : List Moves) (m : Moves) (rest : List Moves),
      popMin l = some (m, rest) → m ∈ l ∧ ∀ e ∈ rest, e ∈ l := by
  intro l
  induction l with
  | nil =>
    intro m rest h
    simp [popMin] at h
  | cons a t ih =>
    intro m rest h
    simp only [popMin] at h
    cases hp : popMin t with
    | none =>
      rw [hp] at h
      dsimp only at h
      obtain ⟨h1, h2⟩ := Prod.mk.inj (Option.some.inj h)
      subst h1
      refine ⟨List.mem_cons_self _ _, ?_⟩
      intro e he
      rw [← h2] at he
      simp at he
    | some mr =>
      rw [hp] at h
      obtain ⟨m', rest'⟩ := mr
      dsimp only at h
      have hmem := ih m' rest' hp
      split_ifs at h with hlt
      · obtain ⟨h1, h2⟩ := Prod.mk.inj (Option.some.inj h)
        subst h1
        refine ⟨List.mem_cons_of_mem _ hmem.1, ?_⟩
        intro e he
        rw [← h2] at he
        rcases List.mem_cons.mp he with rfl | he'
        · exact List.mem_cons_self _ _
        · exact List.mem_cons_of_mem _ (hmem.2 e he')
      · obtain ⟨h1, h2⟩ := Prod.mk.inj (Option.some.inj h)
        subst h1
        refine ⟨List.mem_cons_self _ _, ?_⟩
        intro e he
        rw [← h2] at he
        exact List.mem_cons_of_mem _ he

/-- Every move the expansion step pushes carries the cost of an admissible
path to its state. -/
theorem expandMove_sound (m : Map) (minS maxS : Nat) (mov : Moves)
    (hmov : Reachable m minS maxS (mov.x, mov.y, mov.dir, mov.num_straight_moves)
      mov.current_cost) (dir : Dir)
    (hdir : dir = mov.dir ∨ dir = mov.dir.turn_left ∨ dir = mov.dir.turn_right)
    (acc : List Moves × List SearchKey)
    (hacc : ∀ e ∈ acc.1, Reachable m minS maxS (e.x, e.y, e.dir, e.num_straight_moves)
      e.current_cost) :
    ∀ e ∈ (expandMove m minS maxS mov acc dir).1,
      Reachable m minS maxS (e.x, e.y, e.dir, e.num_straight_moves)
        e.current_cost := by
  unfold expandMove
  split_ifs with hg1 hg2
  · exact hacc
  · exact hacc
  · cases hsc : stepCoord mov.x mov.y dir with
    | none =>
      dsimp only
      exact hacc
    | some xy =>
      obtain ⟨x2, y2⟩ := xy
      dsimp only
      cases hbl : m.blocks.lookup (x2, y2) with
      | none =>
        dsimp only
        exact hacc
      | some cost =>
        dsimp only
        split_ifs with hvis
        · exact hacc
        · intro e he
          rcases List.mem_append.mp he with hold | hnew
          · exact hacc e hold
          · rcases List.mem_singleton.mp hnew with rfl
            dsimp only
            exact Reachable.step hmov hdir (by omega)
              (fun hne => by
                rcases not_and_or.mp hg2 with hc | hc
                · exact absurd hne (by simpa using hc)
                · omega)
              hsc hbl

/-- Soundness of the search loop: if every pending move carries the cost of
an admissible path, a successful result is the cost of an admissible path
ending at the target. -/
theorem cheapestPathLoop_sound (m : Map) (minS maxS : Nat) :
    ∀ (fuel : Nat) (heap : List Moves) (visited : List SearchKey) (c : Nat),
      (∀ e ∈ heap, Reachable m minS maxS (e.x, e.y, e.dir, e.num_straight_moves)
        e.current_cost) →
      (cheapestPathLoop m minS maxS fuel heap visited).1 = some (some c) →
      ∃ d n, Reachable m minS maxS
        ((targetOf m).1, (targetOf m).2, d, n) c := by
  intro fuel
  induction fuel with
  | zero =>
    intro heap visited c hheap h
    simp [cheapestPathLoop] at h
  | succ fuel ih =>
    intro heap visited c hheap h
    simp only [cheapestPathLoop] at h
    cases hp : popMin heap with
    | none =>
      rw [hp] at h
      simp at h
    | some mr =>
      rw [hp] at h
      obtain ⟨mov, rest⟩ := mr
      dsimp only at h
      have hmm := popMin_mem heap mov rest hp
      split_ifs at h with htgt
      · dsimp only at h
        have hc : mov.current_cost = c := Option.some.inj (Option.some.inj h)
        refine ⟨mov.dir, mov.num_straight_moves, ?_⟩
        have hr := hheap mov hmm.1
        rw [← hc, ← htgt]
        exact hr
      · dsimp only at h
        refine ih _ _ c ?_ h
        have hstep : ∀ (dirs : List Dir) (acc : List Moves × List SearchKey),
            (∀ d ∈ dirs, d = mov.dir ∨ d = mov.dir.turn_left
              ∨ d = mov.dir.turn_right) →
            (∀ e ∈ acc.1, Reachable m minS maxS
              (e.x, e.y, e.dir, e.num_straight_moves) e.current_cost) →
            ∀ e ∈ (dirs.foldl (expandMove m minS maxS mov) acc).1,
              Reachable m minS maxS (e.x, e.y, e.dir, e.num_straight_moves)
                e.current_cost := by
          intro dirs
          induction dirs with
          | nil =>
            intro acc hd hacc
            exact hacc
          | cons d0 ds ihd =>
            intro acc hd hacc
            simp only [List.foldl_cons]
            exact ihd _ (fun d hdm => hd d (List.mem_cons_of_mem _ hdm))
              (expandMove_sound m minS maxS mov (hheap mov hmm.1) d0
                (hd d0 (List.mem_cons_self _ _)) acc hacc)
        refine hstep _ _ ?_ ?_
        · intro d hd
          simp only [List.mem_cons, List.not_mem_nil, or_false] at hd
          rcases hd with rfl | rfl | rfl
          · exact Or.inl rfl
          · exact Or.inr (Or.inl rfl)
          · exact Or.inr (Or.inr rfl)
        · intro e he
          exact hheap e (hmm.2 e he)

/-- The loop returns `none` (with any terminating fuel) exactly when the
frontier empties without any dequeued move sitting on the target. -/
theorem cheapestPathLoop_none_iff (m : Map) (minS maxS : Nat) :
    ∀ (fuel : Nat) (heap : List Moves) (visited : List SearchKey) (r : Option Nat),
      (cheapestPathLoop m minS maxS fuel heap visited).1 = some r →
      (r = none ↔ ∀ mov ∈ (cheapestPathLoop m minS maxS fuel heap visited).2,
        (mov.x, mov.y) ≠ targetOf m) := by
  intro fuel
  induction fuel with
  | zero =>
    intro heap visited r h
    simp [cheapestPathLoop] at h
  | succ fuel ih =>
    intro heap visited r h
    simp only [cheapestPathLoop] at h ⊢
    cases hp : popMin heap with
    | none =>
      rw [hp] at h
      dsimp only at h
      have hr : r = none := (Option.some.inj h).symm
      subst hr
      dsimp only
      simp
    | some mr =>
      rw [hp] at h
      obtain ⟨mov, rest⟩ := mr
      dsimp only at h ⊢
      split_ifs at h ⊢ with htgt
      · have hr : r = some mov.current_cost := (Option.some.inj h).symm
        subst hr
        constructor
        · intro hfalse
          cases hfalse
        · intro hall
          exact absurd htgt (hall mov (List.mem_singleton_self _))
      · have hih := ih _ _ r h
        rw [hih]
        constructor
        · intro hall mov2 hmov2
          rcases List.mem_cons.mp hmov2 with rfl | hmov2'
          · exact htgt
          · exact hall mov2 hmov2'
        · intro hall mov2 hmov2
          exact hall mov2 (List.mem_cons_of_mem _ hmov2)

end Day17

namespace Day17

/-- A 3 by 3 cost grid (rows `000`, `010`, `100`) on which the search is
suboptimal: the visited set finalizes a `SearchKey` at push time, so the
cheaper later route to the same key is discarded. -/
def counterMap : Map :=
  ⟨3, 3,
   [((0, 0), 0), ((1, 0), 0), ((2, 0), 0),
    ((0, 1), 0), ((1, 1), 1), ((2, 1), 0),
    ((0, 2), 1), ((1, 2), 0), ((2, 2), 0)]⟩

end Day17

namespace Day17

/-- Unfolds `cheapestPathRun` to its loop call. -/
theorem cheapestPathRun_eq (m : Map) (minS maxS : Nat) :
    cheapestPathRun m minS maxS = cheapestPathLoop m minS maxS
      (cpFuel m maxS)
      [⟨manhattan_distance (0, 0) (targetOf m), 0, 0, 0, Dir.right, 0⟩,
       ⟨manhattan_distance (0, 0) (targetOf m), 0, 0, 0, Dir.down, 0⟩]
      [(0, 0, Dir.right, 0), (0, 0, Dir.down, 0)] := rfl

end Day17

set_option maxRecDepth 4000 in
/-- C2 counterexample: on the parseable 3 by 3 grid `000 / 010 / 100`,
`cheapest_path` with straight-move bounds (1, 3) returns 1, although the
admissible path Right, Right, Down, Down reaches the bottom-right target at
accumulated cost 0 — so the returned cost is not the minimum accumulated
cost over all admissible paths (the visited set excludes a tuple when it is
first pushed, not when it is popped, so a later cheaper route to the same
tuple is dropped). -/
theorem cheapest_path_not_minimal :
    Day17.from_str [['0', '0', '0'], ['0', '1', '0'], ['1', '0', '0']]
        = some Day17.counterMap
      ∧ Day17.cheapest_path Day17.counterMap 1 3 = some 1
      ∧ Day17.Reachable Day17.counterMap 1 3 (2, 2, Day17.Dir.down, 2) 0
      ∧ (0 : Nat) < 1 := by
  refine ⟨by decide, by decide, ?_, by decide⟩
  have h1 : Day17.Reachable Day17.counterMap 1 3 (1, 0, Day17.Dir.right, 1) 0 :=
    Day17.Reachable.step Day17.Reachable.seedRight (Or.inl rfl) (by decide)
      (fun h => absurd rfl h)
      (show Day17.stepCoord 0 0 Day17.Dir.right = some (1, 0) by decide)
      (show List.lookup (1, 0) Day17.counterMap.blocks = some 0 by decide)
  have h2 : Day17.Reachable Day17.counterMap 1 3 (2, 0, Day17.Dir.right, 2) 0 :=
    Day17.Reachable.step h1 (Or.inl rfl) (by decide)
      (fun h => absurd rfl h)
      (show Day17.stepCoord 1 0 Day17.Dir.right = some (2, 0) by decide)
      (show List.lookup (2, 0) Day17.counterMap.blocks = some 0 by decide)
  have h3 : Day17.Reachable Day17.counterMap 1 3 (2, 1, Day17.Dir.down, 1) 0 :=
    Day17.Reachable.step h2 (Or.inr (Or.inr rfl)) (by decide)
      (fun _ => by decide)
      (show Day17.stepCoord 2 0 Day17.Dir.down = some (2, 1) by decide)
      (show List.lookup (2, 1) Day17.counterMap.blocks = some 0 by decide)
  exact Day17.Reachable.step h3 (Or.inl rfl) (by decide)
    (fun h => absurd rfl h)
    (show Day17.stepCoord 2 1 Day17.Dir.down = some (2, 2) by decide)
    (show List.lookup (2, 2) Day17.counterMap.blocks = some 0 by decide)

set_option maxRecDepth 4000 in
/-- C2 (amended): a `SearchState` tuple `(position, direction, run length)`
is excluded from further consideration as soon as it is first pushed (the
visited set is extended at generation time, before the pop), so re-insertion
with a better accumulated cost never happens; consequently the returned cost
is the accumulated cost of some admissible path from the origin to the
bottom-right target, but not necessarily the minimum one (see the
counterexample). -/
theorem cheapest_path_returns_admissible_path_cost
    (m : Day17.Map) (minS maxS c : Nat)
    (hterm : (Day17.cheapestPathRun m minS maxS).1 = some (some c)) :
    Day17.cheapest_path m minS maxS = some c
      ∧ ∃ d n, Day17.Reachable m minS maxS
          ((Day17.targetOf m).1, (Day17.targetOf m).2, d, n) c := by
  have hterm2 := hterm
  rw [Day17.cheapestPathRun_eq] at hterm2
  constructor
  · unfold Day17.cheapest_path
    rw [hterm]
    rfl
  · refine Day17.cheapestPathLoop_sound m minS maxS (Day17.cpFuel m maxS)
      [⟨Day17.manhattan_distance (0, 0) (Day17.targetOf m), 0, 0, 0, Day17.Dir.right, 0⟩,
       ⟨Day17.manhattan_distance (0, 0) (Day17.targetOf m), 0, 0, 0, Day17.Dir.down, 0⟩]
      [(0, 0, Day17.Dir.right, 0), (0, 0, Day17.Dir.down, 0)] c ?_ hterm2
    intro e he
    simp only [List.mem_cons, List.not_mem_nil, or_false] at he
    rcases he with rfl | rfl
    · exact Day17.Reachable.seedRight
    · exact Day17.Reachable.seedDown

set_option maxRecDepth 4000 in
/-- Witness for C2 (amended) on the counterexample grid: the returned cost 1
is the cost of some admissible path to the target. -/
theorem cheapest_path_returns_admissible_path_cost_witness :
    Day17.cheapest_path Day17.counterMap 1 3 = some 1
      ∧ ∃ d n, Day17.Reachable Day17.counterMap 1 3
          ((Day17.targetOf Day17.counterMap).1,
            (Day17.targetOf Day17.counterMap).2, d, n) 1 :=
  cheapest_path_returns_admissible_path_cost Day17.counterMap 1 3 1 (by decide)

set_option maxRecDepth 4000 in
/-- C7: when the loop terminates (the fuel is a bound on the number of
pops), the result is `none` exactly when the frontier emptied without any
dequeued state sitting on the bottom-right target, and the absent result is
an `Option`, not a fault — the embedded function is total; even on the
degenerate empty map (width 0, `usize` wrapping making the target
unreachable) it returns `none`. -/
theorem cheapest_path_none_iff_no_dequeued_target
    (m : Day17.Map) (minS maxS : Nat) (r : Option Nat)
    (hterm : (Day17.cheapestPathRun m minS maxS).1 = some r) :
    Day17.cheapest_path m minS maxS = r
      ∧ (r = none ↔ ∀ mov ∈ (Day17.cheapestPathRun m minS maxS).2,
          (mov.x, mov.y) ≠ Day17.targetOf m)
      ∧ Day17.cheapest_path ⟨0, 0, []⟩ 1 3 = none := by
  have hterm2 := hterm
  rw [Day17.cheapestPathRun_eq] at hterm2
  refine ⟨?_, ?_, by decide⟩
  · unfold Day17.cheapest_path
    rw [hterm]
    rfl
  · rw [Day17.cheapestPathRun_eq]
    exact Day17.cheapestPathLoop_none_iff m minS maxS (Day17.cpFuel m maxS)
      [⟨Day17.manhattan_distance (0, 0) (Day17.targetOf m), 0, 0, 0, Day17.Dir.right, 0⟩,
       ⟨Day17.manhattan_distance (0, 0) (Day17.targetOf m), 0, 0, 0, Day17.Dir.down, 0⟩]
      [(0, 0, Day17.Dir.right, 0), (0, 0, Day17.Dir.down, 0)] r hterm2

set_option maxRecDepth 4000 in
/-- Witness for C7 on the 2 by 2 all-ones grid with straight-move bounds
(4, 10): no admissible move can turn before 4 straight moves, the frontier
empties, and the search returns `none`. -/
theorem cheapest_path_none_iff_no_dequeued_target_witness :
    Day17.cheapest_path ⟨2, 2, [((0, 0), 1), ((1, 0), 1), ((0, 1), 1), ((1, 1), 1)]⟩ 4 10
        = none
      ∧ ((none : Option Nat) = none ↔
          ∀ mov ∈ (Day17.cheapestPathRun
            ⟨2, 2, [((0, 0), 1), ((1, 0), 1), ((0, 1), 1), ((1, 1), 1)]⟩ 4 10).2,
          (mov.x, mov.y) ≠ Day17.targetOf
            ⟨2, 2, [((0, 0), 1), ((1, 0), 1), ((0, 1), 1), ((1, 1), 1)]⟩)
      ∧ Day17.cheapest_path ⟨0, 0, []⟩ 1 3 = none :=
  cheapest_path_none_iff_no_dequeued_target
    ⟨2, 2, [((0, 0), 1), ((1, 0), 1), ((0, 1), 1), ((1, 1), 1)]⟩ 4 10 none (by decide)
